import Mathlib

/-
Verification development for the confctl dependency-graph build engine.

Each section shallowly embeds one part of the Python source:
  * registry resolver dispatch        (confctl/deps/registry.py)
  * the dep action spec rewriting     (confctl/deps/resolvers/conf/actions.py)
  * ConfResolver per-fqn memoization  (confctl/deps/resolvers/conf/resolver.py)
  * spec parsing                      (confctl/deps/dep.py parse_spec)
  * deferred template cells           (confctl/deps/ctx.py, utils/template.py)
  * channel receive backoff           (confctl/channel.py)
  * operation tracking events         (confctl/wire/events.py, deps/action.py)
-/

namespace Confctl

/-! ## Registry dispatch (confctl/deps/registry.py)

A resolver exposes can_resolve and resolve, both taking the raw spec and a
context.  Registry.resolve walks the registered resolvers in order and
dispatches to the first one whose can_resolve returns true; if none accepts
the spec it raises (modelled with Except). -/

/-- A registered resolver: the pair of callbacks of the Resolver protocol in
confctl/deps/registry.py (can_resolve and resolve, each applied to the raw
spec string and the context). -/
structure Rsv (C V : Type) where
  can_resolve : String → C → Bool
  resolve : String → C → V

/-- The error raised by Registry.resolve when no resolver claims a spec
(RuntimeError "Cannot find a handler for ... spec."). -/
inductive RegError where
  | noResolverFound (raw_spec : String)
deriving DecidableEq

namespace Registry

/-- Registry.resolve from confctl/deps/registry.py: try each registered
resolver in registration order; dispatch to the first whose can_resolve
returns true; error out when none matches. -/
def resolve {C V : Type} (resolvers : List (Rsv C V)) (raw_spec : String) (ctx : C) :
    Except RegError V :=
  match resolvers with
  | [] => .error (.noResolverFound raw_spec)
  | r :: rest =>
    if r.can_resolve raw_spec ctx then .ok (r.resolve raw_spec ctx)
    else resolve rest raw_spec ctx

theorem resolve_nil {C V : Type} (raw : String) (ctx : C) :
    resolve ([] : List (Rsv C V)) raw ctx = .error (.noResolverFound raw) := rfl

theorem resolve_cons {C V : Type} (r : Rsv C V) (rest : List (Rsv C V)) (raw : String) (ctx : C) :
    resolve (r :: rest) raw ctx =
      if r.can_resolve raw ctx then .ok (r.resolve raw ctx) else resolve rest raw ctx := rfl

theorem resolve_skips_nonmatching {C V : Type} (rs1 : List (Rsv C V)) (rest : List (Rsv C V))
    (raw : String) (ctx : C) (h : ∀ x ∈ rs1, x.can_resolve raw ctx = false) :
    resolve (rs1 ++ rest) raw ctx = resolve rest raw ctx := by
  induction rs1 with
  | nil => rfl
  | cons r rs ih =>
    have hr : r.can_resolve raw ctx = false := h r (List.mem_cons_self r rs)
    rw [List.cons_append, resolve_cons, hr]
    simp only [Bool.false_eq_true, if_false]
    exact ih (fun x hx => h x (List.mem_cons_of_mem r hx))

theorem resolve_error_iff_none_match {C V : Type} (rs : List (Rsv C V)) (raw : String) (ctx : C) :
    resolve rs raw ctx = .error (.noResolverFound raw) ↔
      ∀ x ∈ rs, x.can_resolve raw ctx = false := by
  induction rs with
  | nil => simp [resolve_nil]
  | cons r rest ih =>
    cases hr : r.can_resolve raw ctx with
    | true =>
      constructor
      · intro hres
        rw [resolve_cons, hr] at hres
        simp at hres
      · intro hall
        have hcontra := hall r (List.mem_cons_self r rest)
        rw [hr] at hcontra
        simp at hcontra
    | false =>
      rw [resolve_cons, hr]
      simp only [Bool.false_eq_true, if_false]
      constructor
      · intro hres x hx
        rcases List.mem_cons.mp hx with h1 | h2
        · subst h1; exact hr
        · exact (ih.mp hres) x h2
      · intro hall
        exact ih.mpr (fun x hx => hall x (List.mem_cons_of_mem r hx))

end Registry

/-- Claim C5: Registry.resolve consults can_resolve in registration order and
dispatches to the first resolver that accepts the raw spec; resolvers after
the first match are not consulted (the result does not depend on them); it
fails with NoResolverFound exactly when no registered resolver accepts the
spec. -/
theorem registry_first_match_dispatch {C V : Type} (rs1 rs2 : List (Rsv C V)) (r : Rsv C V)
    (raw : String) (ctx : C)
    (hskip : ∀ x ∈ rs1, x.can_resolve raw ctx = false)
    (hr : r.can_resolve raw ctx = true) :
    Registry.resolve (rs1 ++ r :: rs2) raw ctx = .ok (r.resolve raw ctx) ∧
    (∀ rs2' : List (Rsv C V),
      Registry.resolve (rs1 ++ r :: rs2') raw ctx = Registry.resolve (rs1 ++ r :: rs2) raw ctx) ∧
    (∀ rs : List (Rsv C V),
      Registry.resolve rs raw ctx = .error (.noResolverFound raw) ↔
        ∀ x ∈ rs, x.can_resolve raw ctx = false) := by
  have hmain : ∀ rs2' : List (Rsv C V),
      Registry.resolve (rs1 ++ r :: rs2') raw ctx = .ok (r.resolve raw ctx) := by
    intro rs2'
    rw [Registry.resolve_skips_nonmatching rs1 (r :: rs2') raw ctx hskip]
    simp [Registry.resolve_cons, hr]
  refine ⟨hmain rs2, ?_, ?_⟩
  · intro rs2'; rw [hmain rs2', hmain rs2]
  · intro rs; exact Registry.resolve_error_iff_none_match rs raw ctx

/-- A concrete run of the dispatch theorem: two resolvers, the first one
rejecting every spec, the second accepting; dispatch picks the second. -/
theorem registry_first_match_dispatch_witness :
    Registry.resolve
        ([⟨fun _ _ => false, fun _ _ => 0⟩] ++ (⟨fun _ _ => true, fun s _ => s.length⟩ : Rsv Unit Nat) :: [])
        "conf::tools/kitty" () = .ok 17 := by
  have h := registry_first_match_dispatch
    (C := Unit) (V := Nat)
    [⟨fun _ _ => false, fun _ _ => 0⟩] [] ⟨fun _ _ => true, fun s _ => s.length⟩
    "conf::tools/kitty" ()
    (by intro x hx; simp at hx; subst hx; rfl) rfl
  simpa using h.1

/-! ## The dep action (confctl/deps/resolvers/conf/actions.py, def dep)

The dep action receives a raw spec string.  When the spec starts with "./"
and the action has a caller Dep, the spec is first rewritten to the caller
base_name joined with the remainder after "./"; only then is it rendered
(render/str) and handed to the registry for resolver dispatch. -/

namespace DepAction

/-- Python spec.startswith("./"): the first two characters are "./". -/
def startsDotSlash (s : String) : Bool := s.data.take 2 == ['.', '/']

/-- The spec rewriting performed at the top of the dep action: a spec
starting with "./" and a present caller get the caller base_name prepended
(spec.removeprefix("./") is dropping the two leading characters). -/
def rewriteSpec (caller_base_name : Option String) (spec : String) : String :=
  match caller_base_name with
  | some base => if startsDotSlash spec then base ++ "/" ++ spec.drop 2 else spec
  | none => spec

/-- The dep action pipeline after the rewrite: render the (rewritten) spec,
then dispatch through the registry; returns the resolved value together with
the spec string that was dispatched. -/
def depAction {V : Type} (render : String → String) (registry_resolve : String → V)
    (caller_base_name : Option String) (spec : String) : V × String :=
  let s1 := rewriteSpec caller_base_name spec
  let s2 := render s1
  (registry_resolve s2, s2)

end DepAction

/-- Claim C9: for a dep(spec) call with a caller whose base_name is known,
a spec beginning with "./" is rewritten to caller.base_name ++ "/" ++ rest
before rendering and before resolver dispatch (both happen on the rewritten
string); other specs, and calls without a caller, are passed through
unchanged. -/
theorem dep_action_relative_rewrite {V : Type} (render : String → String)
    (registry_resolve : String → V) (base spec : String)
    (h : DepAction.startsDotSlash spec = true) :
    DepAction.depAction render registry_resolve (some base) spec =
      (registry_resolve (render (base ++ "/" ++ spec.drop 2)),
        render (base ++ "/" ++ spec.drop 2)) ∧
    (∀ s : String, DepAction.startsDotSlash s = false →
      DepAction.depAction render registry_resolve (some base) s =
        (registry_resolve (render s), render s)) ∧
    (∀ s : String,
      DepAction.depAction render registry_resolve none s =
        (registry_resolve (render s), render s)) := by
  refine ⟨?_, ?_, ?_⟩
  · simp [DepAction.depAction, DepAction.rewriteSpec, h]
  · intro s hs; simp [DepAction.depAction, DepAction.rewriteSpec, hs]
  · intro s; simp [DepAction.depAction, DepAction.rewriteSpec]

/-- A concrete run of the rewrite theorem: caller base_name "apps/editor"
with spec "./plugins" dispatches "apps/editor/plugins". -/
theorem dep_action_relative_rewrite_witness :
    DepAction.depAction (fun s => s) (fun s => s.length) (some "apps/editor") "./plugins" =
      (19, "apps/editor/plugins") := by
  have h := dep_action_relative_rewrite (fun s => s) (fun s : String => s.length)
    "apps/editor" "./plugins" (by decide)
  simpa using h.1

/-! ## ConfResolver per-fqn memoization (confctl/deps/resolvers/conf/resolver.py)

ConfResolver.resolve parses the raw spec, looks the fqn up in the _resolved
cache and returns the cached ConfDep when present; otherwise it creates the
Dep, stores it in the cache BEFORE calling d.build(), and returns it.  The
Dep object is modelled by a numeric identity (fresh per creation); the build
of user target code is modelled by an outcome oracle keyed by fqn, plus a
ghost log of build invocations.  A raising build is modelled by Except. -/

namespace Memo

/-- The mutable state of ConfResolver: the per-fqn cache _resolved (fqn to
Dep identity), a counter minting fresh Dep identities, and a ghost log
recording each invocation of d.build() (by fqn, in order). -/
structure RState where
  resolved : List (String × Nat)
  nextDep : Nat
  builds : List String
deriving DecidableEq

/-- Association lookup in the _resolved cache (first binding wins, as in a
Python dict where each fqn is inserted at most once). -/
def lookupD (m : List (String × Nat)) (k : String) : Option Nat :=
  match m with
  | [] => none
  | (k0, v) :: rest => if k0 = k then some v else lookupD rest k

/-- The empty resolver state (fresh ConfResolver with no deps resolved). -/
def initState : RState := ⟨[], 0, []⟩

/-- ConfResolver.resolve: parse the raw spec to its fqn, return the cached
Dep when the fqn was already resolved; otherwise create the Dep, register it
in the cache, then run its build.  buildOk says whether the target build
code returns normally (true) or raises (false); a raise propagates as
Except.error while the Dep stays registered. -/
def resolve (parseFqn : String → String) (buildOk : String → Bool) (raw_spec : String)
    (st : RState) : Except String Nat × RState :=
  match lookupD st.resolved (parseFqn raw_spec) with
  | some d => (.ok d, st)
  | none =>
    if buildOk (parseFqn raw_spec) then
      (.ok st.nextDep,
        ⟨st.resolved ++ [(parseFqn raw_spec, st.nextDep)], st.nextDep + 1,
          st.builds ++ [parseFqn raw_spec]⟩)
    else
      (.error (parseFqn raw_spec),
        ⟨st.resolved ++ [(parseFqn raw_spec, st.nextDep)], st.nextDep + 1,
          st.builds ++ [parseFqn raw_spec]⟩)

/-- State evolution across a whole invocation: fold resolve over a list of
requested raw specs (return values discarded, state threaded). -/
def runSeq (parseFqn : String → String) (buildOk : String → Bool) (specs : List String)
    (st : RState) : RState :=
  specs.foldl (fun s q => (resolve parseFqn buildOk q s).2) st

theorem lookupD_append_self (m : List (String × Nat)) (k : String) (v : Nat)
    (h : lookupD m k = none) : lookupD (m ++ [(k, v)]) k = some v := by
  induction m with
  | nil => simp [lookupD]
  | cons p rest ih =>
    rw [lookupD] at h
    by_cases hk : p.1 = k
    · rw [if_pos hk] at h; exact absurd h (by simp)
    · rw [if_neg hk] at h
      show lookupD ((p.1, p.2) :: (rest ++ [(k, v)])) k = some v
      rw [lookupD, if_neg hk]
      exact ih h

theorem lookupD_append_other (m : List (String × Nat)) (k k' : String) (v : Nat)
    (h : k' ≠ k) : lookupD (m ++ [(k', v)]) k = lookupD m k := by
  induction m with
  | nil => simp [lookupD, h]
  | cons p rest ih =>
    show lookupD ((p.1, p.2) :: (rest ++ [(k', v)])) k = lookupD ((p.1, p.2) :: rest) k
    rw [lookupD, lookupD]
    by_cases hk : p.1 = k
    · rw [if_pos hk, if_pos hk]
    · rw [if_neg hk, if_neg hk]; exact ih

/-- After a resolve call the fqn is always in the cache. -/
theorem resolve_registers (parseFqn : String → String) (buildOk : String → Bool)
    (raw : String) (st : RState) :
    (lookupD ((resolve parseFqn buildOk raw st).2).resolved (parseFqn raw)).isSome := by
  unfold resolve
  cases hl : lookupD st.resolved (parseFqn raw) with
  | some d => simp [hl]
  | none =>
    by_cases hb : buildOk (parseFqn raw)
    · simp [hb, lookupD_append_self st.resolved (parseFqn raw) st.nextDep hl]
    · simp [hb, lookupD_append_self st.resolved (parseFqn raw) st.nextDep hl]

/-- A cached fqn makes resolve a pure cache hit: same state, cached Dep. -/
theorem resolve_cache_hit (parseFqn : String → String) (buildOk : String → Bool)
    (raw : String) (st : RState) (d : Nat)
    (h : lookupD st.resolved (parseFqn raw) = some d) :
    resolve parseFqn buildOk raw st = (.ok d, st) := by
  unfold resolve
  rw [h]

/-- Build at-most-once invariant: every fqn occurs at most once in the build
log, and an fqn that was built is registered in the _resolved cache. -/
def Inv (st : RState) : Prop :=
  ∀ f : String, st.builds.count f ≤ 1 ∧
    (1 ≤ st.builds.count f → (lookupD st.resolved f).isSome)

theorem inv_init : Inv initState := by
  intro f
  simp [initState, Inv]

theorem inv_step (parseFqn : String → String) (buildOk : String → Bool) (raw : String)
    (st : RState) (h : Inv st) : Inv (resolve parseFqn buildOk raw st).2 := by
  intro f
  unfold resolve
  cases hl : lookupD st.resolved (parseFqn raw) with
  | some d => exact h f
  | none =>
    have hcount0 : st.builds.count (parseFqn raw) = 0 := by
      rcases h (parseFqn raw) with ⟨-, h2⟩
      by_contra hne
      have : 1 ≤ st.builds.count (parseFqn raw) := Nat.one_le_iff_ne_zero.mpr hne
      have := h2 this
      rw [hl] at this
      simp at this
    have hbuilds : ∀ g : String,
        (st.builds ++ [parseFqn raw]).count g =
          st.builds.count g + (if parseFqn raw = g then 1 else 0) := by
      intro g
      rw [List.count_append]
      simp [List.count_singleton', beq_iff_eq]
    have hres : ∀ g : String,
        (lookupD (st.resolved ++ [(parseFqn raw, st.nextDep)]) g).isSome = true ∨
          lookupD (st.resolved ++ [(parseFqn raw, st.nextDep)]) g = lookupD st.resolved g := by
      intro g
      by_cases hg : parseFqn raw = g
      · left
        subst hg
        rw [lookupD_append_self st.resolved (parseFqn raw) st.nextDep hl]
        rfl
      · right
        exact lookupD_append_other st.resolved g (parseFqn raw) st.nextDep hg
    have hgoal : ∀ g : String,
        ((st.builds ++ [parseFqn raw]).count g ≤ 1 ∧
          (1 ≤ (st.builds ++ [parseFqn raw]).count g →
            (lookupD (st.resolved ++ [(parseFqn raw, st.nextDep)]) g).isSome)) := by
      intro g
      rw [hbuilds g]
      by_cases hg : parseFqn raw = g
      · subst hg
        rw [hcount0]
        refine ⟨by simp, fun _ => ?_⟩
        rw [lookupD_append_self st.resolved (parseFqn raw) st.nextDep hl]
        rfl
      · rcases h g with ⟨hg1, hg2⟩
        rw [if_neg hg]
        refine ⟨by omega, fun hge => ?_⟩
        rcases hres g with hsome | heq
        · exact hsome
        · rw [heq]
          exact hg2 (by omega)
    by_cases hb : buildOk (parseFqn raw)
    · simpa [hb] using hgoal f
    · simpa [hb] using hgoal f

theorem inv_runSeq (parseFqn : String → String) (buildOk : String → Bool)
    (specs : List String) (st : RState) (h : Inv st) :
    Inv (runSeq parseFqn buildOk specs st) := by
  induction specs generalizing st with
  | nil => exact h
  | cons q qs ih =>
    exact ih (resolve parseFqn buildOk q st).2 (inv_step parseFqn buildOk q st h)

end Memo

/-- Claim C1: resolving the same raw spec twice through the ConfResolver
cache returns the same Dep for its fqn and never re-runs build: after any
first resolve, a second resolve of the same spec is a pure no-op returning
the cached Dep (state unchanged, build log unchanged), agreeing with the
first result whenever the first returned one; moreover across any whole
invocation (any sequence of resolve calls from a fresh resolver) each fqn is
built at most once. -/
theorem conf_resolver_memoized (parseFqn : String → String) (buildOk : String → Bool)
    (raw : String) (st st1 : Memo.RState) (r1 : Except String Nat)
    (h : Memo.resolve parseFqn buildOk raw st = (r1, st1)) :
    (∃ d, Memo.lookupD st1.resolved (parseFqn raw) = some d ∧
      Memo.resolve parseFqn buildOk raw st1 = (.ok d, st1) ∧
      ∀ d0, r1 = .ok d0 → d0 = d) ∧
    (∀ specs fqn,
      ((Memo.runSeq parseFqn buildOk specs Memo.initState).builds.count fqn ≤ 1)) := by
  constructor
  · unfold Memo.resolve at h
    cases hl : Memo.lookupD st.resolved (parseFqn raw) with
    | some d =>
      rw [hl] at h
      have hr : r1 = .ok d := by
        have := congrArg Prod.fst h
        simpa using this.symm
      have hst : st1 = st := by
        have := congrArg Prod.snd h
        simpa using this.symm
      refine ⟨d, ?_, ?_, ?_⟩
      · rw [hst]; exact hl
      · rw [hst]; exact Memo.resolve_cache_hit parseFqn buildOk raw st d hl
      · intro d0 h0
        rw [hr] at h0
        simpa using h0.symm
    | none =>
      rw [hl] at h
      by_cases hb : buildOk (parseFqn raw)
      · rw [if_pos hb] at h
        have hst : st1 = ⟨st.resolved ++ [(parseFqn raw, st.nextDep)], st.nextDep + 1,
            st.builds ++ [parseFqn raw]⟩ := by
          have := congrArg Prod.snd h
          simpa using this.symm
        have hr : r1 = .ok st.nextDep := by
          have := congrArg Prod.fst h
          simpa using this.symm
        have hlook : Memo.lookupD st1.resolved (parseFqn raw) = some st.nextDep := by
          rw [hst]
          exact Memo.lookupD_append_self st.resolved (parseFqn raw) st.nextDep hl
        refine ⟨st.nextDep, hlook,
          Memo.resolve_cache_hit parseFqn buildOk raw st1 st.nextDep hlook, ?_⟩
        intro d0 h0
        rw [hr] at h0
        simpa using h0.symm
      · rw [if_neg hb] at h
        have hst : st1 = ⟨st.resolved ++ [(parseFqn raw, st.nextDep)], st.nextDep + 1,
            st.builds ++ [parseFqn raw]⟩ := by
          have := congrArg Prod.snd h
          simpa using this.symm
        have hr : r1 = .error (parseFqn raw) := by
          have := congrArg Prod.fst h
          simpa using this.symm
        have hlook : Memo.lookupD st1.resolved (parseFqn raw) = some st.nextDep := by
          rw [hst]
          exact Memo.lookupD_append_self st.resolved (parseFqn raw) st.nextDep hl
        refine ⟨st.nextDep, hlook,
          Memo.resolve_cache_hit parseFqn buildOk raw st1 st.nextDep hlook, ?_⟩
        intro d0 h0
        rw [hr] at h0
        simp at h0
  · intro specs fqn
    exact ((Memo.inv_runSeq parseFqn buildOk specs Memo.initState Memo.inv_init) fqn).1

/-- A concrete run of the memoization theorem: resolving "conf::a" from a
fresh resolver and then resolving it again returns the same Dep id 0 with
unchanged state. -/
theorem conf_resolver_memoized_witness :
    ∃ d, Memo.lookupD
        ((Memo.resolve id (fun _ => true) "conf::a" Memo.initState).2).resolved "conf::a" =
          some d ∧
      Memo.resolve id (fun _ => true) "conf::a"
          ((Memo.resolve id (fun _ => true) "conf::a" Memo.initState).2) =
        (.ok d, (Memo.resolve id (fun _ => true) "conf::a" Memo.initState).2) ∧
      ∀ d0, (Memo.resolve id (fun _ => true) "conf::a" Memo.initState).1 = .ok d0 → d0 = d := by
  exact (conf_resolver_memoized id (fun _ => true) "conf::a" Memo.initState
    (Memo.resolve id (fun _ => true) "conf::a" Memo.initState).2
    (Memo.resolve id (fun _ => true) "conf::a" Memo.initState).1 rfl).1

/-- Claim C10: ConfResolver.resolve registers the new Dep in its per-fqn
cache before invoking build, so a raising build leaves the Dep registered:
the first resolve propagates the error while the cache gains the fqn, and a
subsequent resolve of the same spec returns the cached Dep immediately, with
no second build (build log unchanged) - a failed build is never retried. -/
theorem conf_resolver_failed_build_cached (parseFqn : String → String)
    (buildOk : String → Bool) (raw : String) (st : Memo.RState)
    (h1 : Memo.lookupD st.resolved (parseFqn raw) = none)
    (h2 : buildOk (parseFqn raw) = false) :
    Memo.resolve parseFqn buildOk raw st =
      (.error (parseFqn raw),
        ⟨st.resolved ++ [(parseFqn raw, st.nextDep)], st.nextDep + 1,
          st.builds ++ [parseFqn raw]⟩) ∧
    Memo.lookupD (st.resolved ++ [(parseFqn raw, st.nextDep)]) (parseFqn raw) =
      some st.nextDep ∧
    Memo.resolve parseFqn buildOk raw
        ⟨st.resolved ++ [(parseFqn raw, st.nextDep)], st.nextDep + 1,
          st.builds ++ [parseFqn raw]⟩ =
      (.ok st.nextDep,
        ⟨st.resolved ++ [(parseFqn raw, st.nextDep)], st.nextDep + 1,
          st.builds ++ [parseFqn raw]⟩) := by
  have hlook : Memo.lookupD (st.resolved ++ [(parseFqn raw, st.nextDep)]) (parseFqn raw) =
      some st.nextDep :=
    Memo.lookupD_append_self st.resolved (parseFqn raw) st.nextDep h1
  refine ⟨?_, hlook, ?_⟩
  · unfold Memo.resolve
    rw [h1, if_neg (by simp [h2])]
  · exact Memo.resolve_cache_hit parseFqn buildOk raw _ st.nextDep hlook

/-- A concrete run of the failed-build caching theorem: "conf::bad" whose
build raises stays registered as Dep 0 and resolves from cache afterwards. -/
theorem conf_resolver_failed_build_cached_witness :
    Memo.resolve id (fun _ => false) "conf::bad" Memo.initState =
      (.error "conf::bad", ⟨[("conf::bad", 0)], 1, ["conf::bad"]⟩) ∧
    Memo.lookupD ([] ++ [("conf::bad", 0)]) "conf::bad" = some 0 ∧
    Memo.resolve id (fun _ => false) "conf::bad" ⟨[] ++ [("conf::bad", 0)], 0 + 1, [] ++ ["conf::bad"]⟩ =
      (.ok 0, ⟨[] ++ [("conf::bad", 0)], 0 + 1, [] ++ ["conf::bad"]⟩) := by
  have h := conf_resolver_failed_build_cached id (fun _ => false) "conf::bad"
    Memo.initState rfl rfl
  simpa [Memo.initState] using h

/-! ## Deferred template cells (confctl/deps/ctx.py, confctl/utils/template.py,
conf action in confctl/deps/resolvers/conf/actions.py)

conf(**kw) stores every string value as LazyTemplate(value, render_str)
without rendering it.  Ctx.__getattr__ looks the name up; when the stored
value is a LazyTemplate it renders it (str(val)), writes the rendered string
back into the mapping, and returns it - so later reads hit the cached
string.  Rendering a template that references another context key pulls that
value through the template namespace; a LazyTemplate found there is rendered
by its __str__ (without being written back).  Template strings are modelled
by a literal/variable AST (the jinja engine is out of scope); the render
counter counts LazyTemplate render invocations. -/

namespace Lazy

/-- A template source: either a literal string (no placeholders) or a single
variable reference (a "\x7b\x7b name \x7d\x7d" jinja template). -/
inductive Tmpl where
  | lit (s : String)
  | var (name : String)
deriving DecidableEq

/-- A context cell value: an already-rendered string, or a LazyTemplate. -/
inductive CVal where
  | vstr (s : String)
  | vlazy (t : Tmpl)
deriving DecidableEq

/-- One mapping layer of the Ctx ChainMap (the layer conf writes into). -/
def CtxMap : Type := List (String × CVal)

/-- Dict lookup. -/
def lookupV : CtxMap → String → Option CVal
  | [], _ => none
  | (k, v) :: rest, n => if k = n then some v else lookupV rest n

/-- Dict assignment: overwrite an existing key in place, else append. -/
def updV (m : CtxMap) (k : String) (v : CVal) : CtxMap :=
  match m with
  | [] => [(k, v)]
  | (k0, v0) :: rest => if k0 = k then (k0, v) :: rest else (k0, v0) :: updV rest k v

/-- The conf action: each keyword value (a string) is wrapped into a
LazyTemplate and stored; nothing is rendered by conf itself. -/
def conf (kw : List (String × Tmpl)) (ctx : CtxMap) : CtxMap :=
  kw.foldl (fun c p => updV c p.1 (CVal.vlazy p.2)) ctx

/-- Template rendering: a literal renders to itself; a variable reference
renders str(ctx[name]) - a cached string directly, a LazyTemplate through a
nested render (counted), an absent name as the empty string (jinja
Undefined).  fuel bounds the nested-render depth (Python would hit the
recursion limit on cyclic templates). -/
def renderTmpl : Nat → CtxMap → Tmpl → Option (String × Nat)
  | _, _, .lit s => some (s, 0)
  | fuel, ctx, .var n =>
    match lookupV ctx n with
    | some (.vstr s) => some (s, 0)
    | some (.vlazy t) =>
      match fuel with
      | 0 => none
      | f + 1 =>
        match renderTmpl f ctx t with
        | some p => some (p.1, p.2 + 1)
        | none => none
    | none => some ("", 0)

/-- Ctx.__getattr__: look the name up; render a LazyTemplate cell exactly
once and replace the cell with the rendered string; return the string, the
updated context, and how many LazyTemplate renders the read triggered. -/
def getattrC (fuel : Nat) (ctx : CtxMap) (name : String) : Option (String × CtxMap × Nat) :=
  match lookupV ctx name with
  | some (.vstr s) => some (s, ctx, 0)
  | some (.vlazy t) =>
    match renderTmpl fuel ctx t with
    | some p => some (p.1, updV ctx name (.vstr p.1), p.2 + 1)
    | none => none
  | none => none

end Lazy

/-- Claim C7: after conf(x = "\x7b\x7by\x7d\x7d") followed by conf(y = "1"),
both cells are still unrendered deferred templates (conf performs no
rendering, so the forward reference from x to the later-defined y is legal);
the first read of x renders it to "1" (two LazyTemplate renders: the x cell
and, nested through the template namespace, the y cell) and replaces the x
cell by the cached string "1"; a second read of x returns "1" from the cache
with zero further renders and leaves the context unchanged. -/
theorem deferred_cell_single_render :
    Lazy.conf [("y", .lit "1")] (Lazy.conf [("x", .var "y")] []) =
      [("x", .vlazy (.var "y")), ("y", .vlazy (.lit "1"))] ∧
    Lazy.getattrC 9 [("x", .vlazy (.var "y")), ("y", .vlazy (.lit "1"))] "x" =
      some ("1", [("x", .vstr "1"), ("y", .vlazy (.lit "1"))], 2) ∧
    Lazy.getattrC 9 [("x", .vstr "1"), ("y", .vlazy (.lit "1"))] "x" =
      some ("1", [("x", .vstr "1"), ("y", .vlazy (.lit "1"))], 0) := by
  refine ⟨rfl, ?_, rfl⟩
  rfl

/-! ## Channel receive backoff (confctl/channel.py, AsyncConn.recv)

The observer loop polls the connection; on data it yields the event and
resets the sleeping delay to DEFAULT_SLEEP; on an empty poll it awaits
FIRST_COMPLETED of the reset-event and a sleep of the current delay.  A
wake (reset_sleeping_delay) ends the wait early and resets the delay;
otherwise the wait times out and the delay is multiplied by 1.5, capped at
MAX_SLEEP.  Time is modelled by rationals; nothing in the wait's completion
condition watches for newly arriving data, which is only noticed at the next
poll. -/

namespace Backoff

def DEFAULT_SLEEP : ℚ := 1 / 20

def MAX_SLEEP : ℚ := 3

def GROWING_SLEEP_MULTIPLIER : ℚ := 3 / 2

/-- Delay growth after an empty poll whose wait timed out. -/
def grow (d : ℚ) : ℚ := min (d * GROWING_SLEEP_MULTIPLIER) MAX_SLEEP

/-- One empty-poll wait starting at time now with current delay d: a wake
signal fired at time w inside the wait window ends the wait at w and resets
the delay to the minimum; otherwise the wait runs its full course and the
delay grows.  Returns (time the wait ends, next delay). -/
def waitStep (now d : ℚ) (wakeAt : Option ℚ) : ℚ × ℚ :=
  match wakeAt with
  | some w => if now ≤ w ∧ w < now + d then (w, DEFAULT_SLEEP) else (now + d, grow d)
  | none => (now + d, grow d)

/-- The receive loop waiting for a single message arriving at time arrival,
with no wake signals: each poll at time now either sees the message (it is
yielded at now and the delay resets to the minimum) or sleeps the whole
current delay and grows it.  Returns (yield time, delay after the yield). -/
def recvFirst : Nat → ℚ → ℚ → ℚ → Option (ℚ × ℚ)
  | 0, _, _, _ => none
  | fuel + 1, arrival, now, d =>
    if arrival ≤ now then some (now, DEFAULT_SLEEP)
    else recvFirst fuel arrival (now + d) (grow d)

theorem recvFirst_yield_not_early (fuel : Nat) (arrival now d t d' : ℚ)
    (h : recvFirst fuel arrival now d = some (t, d')) : arrival ≤ t ∧ d' = DEFAULT_SLEEP := by
  induction fuel generalizing now d with
  | zero => simp [recvFirst] at h
  | succ f ih =>
    rw [recvFirst] at h
    by_cases ha : arrival ≤ now
    · rw [if_pos ha] at h
      have h1 := congrArg Prod.fst (Option.some.inj h)
      have h2 := congrArg Prod.snd (Option.some.inj h)
      simp at h1 h2
      exact ⟨h1 ▸ ha, h2.symm⟩
    · rw [if_neg ha] at h
      exact ih (now + d) (grow d) h

end Backoff

/-- Counterexample to claim C8 as stated: a message arriving mid-wait does
not interrupt the wait.  With polls starting at time 0 and delay 1/20, a
message arriving at time 3/50 (during the second wait, which covers the open
window from 1/20 to 1/20 + 3/40 = 1/8) is yielded only at the scheduled end
of that wait, time 1/8, not at its arrival time 3/50. -/
theorem backoff_event_no_interrupt_counterexample :
    Backoff.recvFirst 9 (3 / 50) 0 Backoff.DEFAULT_SLEEP =
      some (1 / 8, Backoff.DEFAULT_SLEEP) ∧
    (1 / 20 : ℚ) < 3 / 50 ∧ (3 / 50 : ℚ) < 1 / 8 := by
  refine ⟨?_, by norm_num, by norm_num⟩
  norm_num [Backoff.recvFirst, Backoff.grow, Backoff.DEFAULT_SLEEP, Backoff.MAX_SLEEP,
    Backoff.GROWING_SLEEP_MULTIPLIER]

/-- Claim C8 (amended): the waiting delay starts at the 0.05 s minimum and
is multiplied by 1.5 after each consecutive empty poll, never exceeding the
3 s cap (after k consecutive empty polls it is min(0.05 * 1.5^k, 3)); an
explicit wake/reset signal fired during a wait ends that wait at the
signal time and resets the next delay to the minimum; receiving an event at
a poll resets the next delay to the minimum, but an event arriving during a
wait does not cut the wait short - it is yielded at the first poll at or
after its arrival. -/
theorem channel_backoff_dynamics :
    (Backoff.DEFAULT_SLEEP = 1 / 20 ∧ Backoff.MAX_SLEEP = 3 ∧
      Backoff.GROWING_SLEEP_MULTIPLIER = 3 / 2) ∧
    (∀ d : ℚ, 0 ≤ d → Backoff.grow d ≤ 3 ∧ (d * (3 / 2) ≤ 3 → Backoff.grow d = d * (3 / 2))) ∧
    (∀ now d w : ℚ, now ≤ w → w < now + d →
      Backoff.waitStep now d (some w) = (w, 1 / 20)) ∧
    (∀ now d : ℚ, Backoff.waitStep now d none = (now + d, Backoff.grow d)) ∧
    (∀ k : Nat, Backoff.grow^[k] Backoff.DEFAULT_SLEEP = min ((1 / 20) * (3 / 2) ^ k) 3) ∧
    (∀ (fuel : Nat) (arrival now d t d' : ℚ),
      Backoff.recvFirst fuel arrival now d = some (t, d') →
        arrival ≤ t ∧ d' = Backoff.DEFAULT_SLEEP) := by
  refine ⟨⟨rfl, rfl, rfl⟩, ?_, ?_, ?_, ?_, ?_⟩
  · intro d hd
    constructor
    · exact min_le_right _ _
    · intro hle
      unfold Backoff.grow Backoff.GROWING_SLEEP_MULTIPLIER Backoff.MAX_SLEEP
      exact min_eq_left hle
  · intro now d w h1 h2
    simp only [Backoff.waitStep]
    rw [if_pos ⟨h1, h2⟩]
    rfl
  · intro now d
    rfl
  · intro k
    induction k with
    | zero =>
      simp [Backoff.DEFAULT_SLEEP]
      norm_num
    | succ n ih =>
      rw [Function.iterate_succ_apply', ih]
      unfold Backoff.grow Backoff.GROWING_SLEEP_MULTIPLIER Backoff.MAX_SLEEP
      have hpow : (0 : ℚ) < (3 / 2) ^ n := by positivity
      by_cases hcap : (1 / 20 : ℚ) * (3 / 2) ^ n ≤ 3
      · rw [min_eq_left hcap, pow_succ]
        ring_nf
      · push_neg at hcap
        rw [min_eq_right (le_of_lt hcap)]
        have h1 : min ((3 : ℚ) * (3 / 2)) 3 = 3 := by norm_num
        rw [h1]
        have h2 : (3 : ℚ) ≤ (1 / 20) * (3 / 2) ^ (n + 1) := by
          rw [pow_succ]
          nlinarith
        rw [min_eq_right h2]
  · exact fun fuel arrival now d t d' h =>
      Backoff.recvFirst_yield_not_early fuel arrival now d t d' h

/-- A concrete run of the backoff theorem: a wake at time 1 during a wait of
3 seconds started at time 0 ends the wait at time 1 and resets the delay. -/
theorem channel_backoff_dynamics_witness :
    Backoff.waitStep 0 3 (some 1) = (1, 1 / 20) ∧
    Backoff.grow^[2] Backoff.DEFAULT_SLEEP = min ((1 / 20) * (3 / 2) ^ 2) 3 := by
  have h := channel_backoff_dynamics
  exact ⟨h.2.2.1 0 3 1 (by norm_num) (by norm_num), h.2.2.2.2.1 2⟩

/-! ## Spec parsing (confctl/deps/dep.py, parse_spec and Spec.fqn)

parse_spec strips the raw string, rsplits once on "?" (the part after the
last "?" is URL-query-decoded by urllib parse_qsl with keep_blank_values and
stored as the params dict together with a __raw_extra_ctx__ entry holding
the raw query string), then splits once on the first "::" to extract the
resolver name (falling back to the default resolver when absent or empty).
Strings are handled at the character-list level; parse_qsl percent-decoding
maps each %XX escape to the character of that byte (the utf-8 recombination
of multi-byte escapes is out of scope and unused here). -/

namespace SpecParse

/-- Python str.strip() whitespace test: the characters str.isspace() holds
for, i.e. all Unicode whitespace stripped by Python 3 - the ASCII range
0x09-0x0D and space, the separators 0x1C-0x1F, NEL 0x85, NBSP 0xA0, Ogham
space 0x1680, the en/em-style spaces 0x2000-0x200A, the line and paragraph
separators 0x2028 and 0x2029, 0x202F, 0x205F, and ideographic space
0x3000. -/
def isPySpace (c : Char) : Bool :=
  decide ((0x09 ≤ c.toNat ∧ c.toNat ≤ 0x0D) ∨ (0x1C ≤ c.toNat ∧ c.toNat ≤ 0x1F) ∨
    c.toNat = 0x20 ∨ c.toNat = 0x85 ∨ c.toNat = 0xA0 ∨ c.toNat = 0x1680 ∨
    (0x2000 ≤ c.toNat ∧ c.toNat ≤ 0x200A) ∨ c.toNat = 0x2028 ∨ c.toNat = 0x2029 ∨
    c.toNat = 0x202F ∨ c.toNat = 0x205F ∨ c.toNat = 0x3000)

/-- Python str.strip(): drop leading and trailing whitespace. -/
def pstrip (s : List Char) : List Char :=
  ((s.dropWhile isPySpace).reverse.dropWhile isPySpace).reverse

/-- Split on the first occurrence of a one-character separator; none when
the separator does not occur. -/
def splitFirst (sep : Char) : List Char → Option (List Char × List Char)
  | [] => none
  | c :: rest =>
    if c = sep then some ([], rest)
    else (splitFirst sep rest).map (fun p => (c :: p.1, p.2))

/-- Python s.rsplit(sep, 1): split at the last occurrence of sep. -/
def rsplitLast (sep : Char) (s : List Char) : Option (List Char × List Char) :=
  match splitFirst sep s.reverse with
  | some (b, a) => some (a.reverse, b.reverse)
  | none => none

/-- Python s.split("::", 1): split at the first occurrence of "::". -/
def splitColonColon : List Char → Option (List Char × List Char)
  | c1 :: c2 :: rest =>
    if c1 = ':' ∧ c2 = ':' then some ([], rest)
    else (splitColonColon (c2 :: rest)).map (fun p => (c1 :: p.1, p.2))
  | _ => none

/-- Python s.split(sep) for a one-character separator (all occurrences,
empty pieces kept; the empty string yields one empty piece). -/
def splitAll (sep : Char) : List Char → List (List Char)
  | [] => [[]]
  | c :: rest =>
    if c = sep then [] :: splitAll sep rest
    else
      match splitAll sep rest with
      | [] => [[c]]
      | g :: gs => (c :: g) :: gs

/-- Hexadecimal digit value, as accepted by percent-escapes. -/
def hexVal (c : Char) : Option Nat :=
  if '0' ≤ c ∧ c ≤ '9' then some (c.toNat - 48)
  else if 'a' ≤ c ∧ c ≤ 'f' then some (c.toNat - 87)
  else if 'A' ≤ c ∧ c ≤ 'F' then some (c.toNat - 55)
  else none

/-- The plus-to-space replacement done by unquote_plus before decoding. -/
def plusToSpace (s : List Char) : List Char :=
  s.map (fun c => if c = '+' then ' ' else c)

/-- Percent-decoding: a %XX escape with two hex digits becomes the character
with that code; an invalid escape is kept verbatim (as in urllib unquote). -/
def pctDecode : List Char → List Char
  | [] => []
  | [c] => [c]
  | [c1, c2] => [c1, c2]
  | c :: h1 :: h2 :: rest =>
    if c = '%' then
      match hexVal h1, hexVal h2 with
      | some a, some b => Char.ofNat (16 * a + b) :: pctDecode rest
      | _, _ => c :: pctDecode (h1 :: h2 :: rest)
    else c :: pctDecode (h1 :: h2 :: rest)

/-- urllib unquote_plus: replace plus by space, then percent-decode. -/
def unquote_plus (s : List Char) : List Char := pctDecode (plusToSpace s)

/-- One field of a query string, as treated by parse_qsl with
keep_blank_values=True: empty fields are skipped; a field without "=" maps
to the empty value; otherwise split at the first "=". -/
def qslField (f : List Char) : Option (List Char × List Char) :=
  if f = [] then none
  else
    match splitFirst '=' f with
    | some (n, v) => some (unquote_plus n, unquote_plus v)
    | none => some (unquote_plus f, [])

/-- urllib parse_qsl(qs, keep_blank_values=True): split the query on "&"
and decode each field. -/
def parse_qsl (s : List Char) : List (List Char × List Char) :=
  (splitAll '&' s).filterMap qslField

/-- Python dict assignment: overwrite an existing key in place, else append
(dicts preserve insertion order). -/
def dictUpd (m : List (String × String)) (k v : String) : List (String × String) :=
  match m with
  | [] => [(k, v)]
  | (k0, v0) :: rest => if k0 = k then (k0, v) :: rest else (k0, v0) :: dictUpd rest k v

/-- Python dict(pairs): left-to-right insertion with overwrite. -/
def dictOf (ps : List (String × String)) : List (String × String) :=
  ps.foldl (fun m p => dictUpd m p.1 p.2) []

/-- Pack a character list back into a string. -/
def strOf (cs : List Char) : String := String.mk cs

/-- The Spec dataclass of confctl/deps/dep.py: raw spec, resolver name,
resolver-specific spec body, and the extra params dict. -/
structure Spec where
  raw_spec : String
  resolver_name : String
  spec : String
  params : List (String × String)
deriving DecidableEq

/-- Spec.fqn: resolver_name "::" spec. -/
def Spec.fqn (s : Spec) : String := s.resolver_name ++ "::" ++ s.spec

/-- The "?"-split stage of parse_spec: everything after the last "?" is
stripped, parsed as a query string into the params dict, and recorded
verbatim under __raw_extra_ctx__; the part before is stripped and parsed
on. -/
def paramsSplit (s0 : List Char) : List Char × List (String × String) :=
  match rsplitLast '?' s0 with
  | some (b, a) =>
    (pstrip b,
      dictUpd
        (dictOf ((parse_qsl (pstrip a)).map (fun p => (strOf p.1, strOf p.2))))
        "__raw_extra_ctx__" (strOf (pstrip a)))
  | none => (s0, [])

/-- The "::"-split stage of parse_spec: resolver-name part and body part,
each stripped; an absent "::" leaves the resolver-name part empty. -/
def resolverSplit (s1 : List Char) : List Char × List Char :=
  match splitColonColon s1 with
  | some rb => (pstrip rb.1, pstrip rb.2)
  | none => ([], s1)

/-- parse_spec from confctl/deps/dep.py: strip, extract params after the
last "?", extract the resolver name before the first "::" (empty resolver
name falls back to the default), keep the original raw string. -/
def parse_spec (raw_spec : String) (default_resolver_name : String) : Spec :=
  ⟨raw_spec,
    strOf
      (if (resolverSplit (paramsSplit (pstrip raw_spec.data)).1).1 = []
        then default_resolver_name.data
        else (resolverSplit (paramsSplit (pstrip raw_spec.data)).1).1),
    strOf (resolverSplit (paramsSplit (pstrip raw_spec.data)).1).2,
    (paramsSplit (pstrip raw_spec.data)).2⟩

theorem dropWhile_nospace (s : List Char) (h : ∀ c ∈ s, isPySpace c = false) :
    s.dropWhile isPySpace = s := by
  cases s with
  | nil => rfl
  | cons c rest =>
    rw [List.dropWhile_cons]
    simp [h c (List.mem_cons_self c rest)]

theorem pstrip_nospace (s : List Char) (h : ∀ c ∈ s, isPySpace c = false) :
    pstrip s = s := by
  unfold pstrip
  rw [dropWhile_nospace s h,
    dropWhile_nospace s.reverse (fun c hc => h c (List.mem_reverse.mp hc)),
    List.reverse_reverse]

theorem splitFirst_boundary (sep : Char) (X Y : List Char) (h : sep ∉ X) :
    splitFirst sep (X ++ sep :: Y) = some (X, Y) := by
  induction X with
  | nil => simp [splitFirst]
  | cons c rest ih =>
    have hc : c ≠ sep := fun e => h (e ▸ List.mem_cons_self c rest)
    rw [List.cons_append, splitFirst, if_neg hc,
      ih (fun hm => h (List.mem_cons_of_mem c hm))]
    rfl

theorem rsplitLast_boundary (sep : Char) (A B : List Char) (h : sep ∉ B) :
    rsplitLast sep (A ++ sep :: B) = some (A, B) := by
  unfold rsplitLast
  have hrev : (A ++ sep :: B).reverse = B.reverse ++ sep :: A.reverse := by
    simp [List.reverse_append]
  rw [hrev,
    splitFirst_boundary sep B.reverse A.reverse (fun hm => h (List.mem_reverse.mp hm))]
  simp

theorem splitColonColon_boundary (R B : List Char) (h : (':' : Char) ∉ R) :
    splitColonColon (R ++ ':' :: ':' :: B) = some (R, B) := by
  induction R with
  | nil => simp [splitColonColon]
  | cons c rest ih =>
    have hc : c ≠ ':' := fun e => h (e ▸ List.mem_cons_self c rest)
    have hrest : (':' : Char) ∉ rest := fun hm => h (List.mem_cons_of_mem c hm)
    have hih := ih hrest
    cases rest with
    | nil =>
      show splitColonColon (c :: ':' :: ':' :: B) = some ([c], B)
      rw [splitColonColon, if_neg (fun hand => hc hand.1)]
      rw [show ([] : List Char) ++ ':' :: ':' :: B = ':' :: ':' :: B from rfl] at hih
      rw [hih]
      rfl
    | cons c2 rest2 =>
      show splitColonColon (c :: c2 :: (rest2 ++ ':' :: ':' :: B)) = some (c :: c2 :: rest2, B)
      rw [splitColonColon, if_neg (fun hand => hc hand.1)]
      rw [show (c2 :: rest2) ++ ':' :: ':' :: B = c2 :: (rest2 ++ ':' :: ':' :: B) from rfl] at hih
      rw [hih]
      rfl

theorem splitAll_no_sep (sep : Char) (s : List Char) (h : sep ∉ s) :
    splitAll sep s = [s] := by
  induction s with
  | nil => rfl
  | cons c rest ih =>
    have hc : c ≠ sep := fun e => h (e ▸ List.mem_cons_self c rest)
    rw [splitAll, if_neg hc, ih (fun hm => h (List.mem_cons_of_mem c hm))]

theorem plusToSpace_no_plus (s : List Char) (h : ('+' : Char) ∉ s) :
    plusToSpace s = s := by
  induction s with
  | nil => rfl
  | cons c rest ih =>
    have hc : c ≠ '+' := fun e => h (e ▸ List.mem_cons_self c rest)
    unfold plusToSpace at *
    rw [List.map_cons, if_neg hc, ih (fun hm => h (List.mem_cons_of_mem c hm))]

theorem pctDecode_no_pct : ∀ s : List Char, ('%' : Char) ∉ s → pctDecode s = s
  | [] => fun _ => rfl
  | [_] => fun _ => rfl
  | [_, _] => fun _ => rfl
  | c :: h1 :: h2 :: rest => fun h => by
    have hc : c ≠ '%' := fun e => h (e ▸ List.mem_cons_self c (h1 :: h2 :: rest))
    have hrec := pctDecode_no_pct (h1 :: h2 :: rest) (fun hm => h (List.mem_cons_of_mem c hm))
    rw [pctDecode, if_neg hc, hrec]

theorem unquote_plus_clean (s : List Char) (hp : ('%' : Char) ∉ s) (hl : ('+' : Char) ∉ s) :
    unquote_plus s = s := by
  unfold unquote_plus
  rw [plusToSpace_no_plus s hl, pctDecode_no_pct s hp]

theorem parse_qsl_single (k v : List Char)
    (hak : ('&' : Char) ∉ k) (hav : ('&' : Char) ∉ v)
    (hpk : ('%' : Char) ∉ k) (hpv : ('%' : Char) ∉ v)
    (hlk : ('+' : Char) ∉ k) (hlv : ('+' : Char) ∉ v)
    (hek : ('=' : Char) ∉ k) :
    parse_qsl (k ++ '=' :: v) = [(k, v)] := by
  unfold parse_qsl
  have hmem : ('&' : Char) ∉ k ++ '=' :: v := by
    intro hm
    rcases List.mem_append.mp hm with h1 | h2
    · exact hak h1
    · rcases List.mem_cons.mp h2 with h3 | h4
      · exact absurd h3 (by decide)
      · exact hav h4
  rw [splitAll_no_sep '&' (k ++ '=' :: v) hmem]
  have hne : k ++ '=' :: v ≠ [] := by
    intro he
    exact absurd (List.append_eq_nil.mp he).2 (by simp)
  have hfield : qslField (k ++ '=' :: v) = some (unquote_plus k, unquote_plus v) := by
    unfold qslField
    rw [if_neg hne, splitFirst_boundary '=' k v hek]
  rw [unquote_plus_clean k hpk hlk, unquote_plus_clean v hpv hlv] at hfield
  simp [List.filterMap, hfield]

theorem strOf_data (s : String) : strOf s.data = s := rfl

theorem paramsSplit_split (s0 A B : List Char) (h : rsplitLast '?' s0 = some (A, B)) :
    paramsSplit s0 =
      (pstrip A,
        dictUpd (dictOf ((parse_qsl (pstrip B)).map (fun p => (strOf p.1, strOf p.2))))
          "__raw_extra_ctx__" (strOf (pstrip B))) := by
  unfold paramsSplit
  rw [h]

theorem resolverSplit_split (s1 R B : List Char) (h : splitColonColon s1 = some (R, B)) :
    resolverSplit s1 = (pstrip R, pstrip B) := by
  unfold resolverSplit
  rw [h]

theorem dictUpd_push (k v K V : String) (h : K ≠ k) :
    dictUpd [(k, v)] K V = [(k, v), (K, V)] := by
  unfold dictUpd
  rw [if_neg (fun e => h e.symm)]
  rfl

end SpecParse

/-- Counterexample to claim C6 as stated: parsing "r::b?k=v" yields fqn
"r::b" but a params dict with TWO entries - the parsed pair plus the
__raw_extra_ctx__ entry recording the raw query string - so params does not
equal exactly the singleton map of k to v. -/
theorem spec_params_exact_counterexample :
    (SpecParse.parse_spec "r::b?k=v" "conf").fqn = "r::b" ∧
    (SpecParse.parse_spec "r::b?k=v" "conf").params =
      [("k", "v"), ("__raw_extra_ctx__", "k=v")] ∧
    (SpecParse.parse_spec "r::b?k=v" "conf").params ≠ [("k", "v")] := by
  refine ⟨by decide, by decide, by decide⟩

/-- Claim C6 (amended): for clean resolver name r (nonempty, no colon, no
whitespace), body b (no whitespace) and query key/value k, v (no whitespace
and none of the query metacharacters, with k not equal to the reserved key
__raw_extra_ctx__), parsing "r::b?k=v" produces a Spec whose fqn is "r::b"
and whose params dict holds exactly the pair (k, v) plus the
__raw_extra_ctx__ entry carrying the raw query string "k=v". -/
theorem spec_query_roundtrip (r b k v dflt : String)
    (hr0 : r.data ≠ [])
    (hws : ∀ c, c ∈ r.data ++ b.data ++ k.data ++ v.data → SpecParse.isPySpace c = false)
    (hrc : (':' : Char) ∉ r.data)
    (hqk : ('?' : Char) ∉ k.data) (hqv : ('?' : Char) ∉ v.data)
    (hak : ('&' : Char) ∉ k.data) (hav : ('&' : Char) ∉ v.data)
    (hpk : ('%' : Char) ∉ k.data) (hpv : ('%' : Char) ∉ v.data)
    (hlk : ('+' : Char) ∉ k.data) (hlv : ('+' : Char) ∉ v.data)
    (hek : ('=' : Char) ∉ k.data)
    (hkr : k ≠ "__raw_extra_ctx__") :
    (SpecParse.parse_spec (r ++ "::" ++ b ++ "?" ++ k ++ "=" ++ v) dflt).fqn =
      r ++ "::" ++ b ∧
    (SpecParse.parse_spec (r ++ "::" ++ b ++ "?" ++ k ++ "=" ++ v) dflt).params =
      [(k, v), ("__raw_extra_ctx__", k ++ "=" ++ v)] := by
  have hwr : ∀ c ∈ r.data, SpecParse.isPySpace c = false :=
    fun c hc => hws c (by simp [hc])
  have hwb : ∀ c ∈ b.data, SpecParse.isPySpace c = false :=
    fun c hc => hws c (by simp [hc])
  have hwk : ∀ c ∈ k.data, SpecParse.isPySpace c = false :=
    fun c hc => hws c (by simp [hc])
  have hwv : ∀ c ∈ v.data, SpecParse.isPySpace c = false :=
    fun c hc => hws c (by simp [hc])
  have hdata : (r ++ "::" ++ b ++ "?" ++ k ++ "=" ++ v).data =
      (r.data ++ ':' :: ':' :: b.data) ++ '?' :: (k.data ++ '=' :: v.data) := by
    simp [String.data_append]
  have hwsA : ∀ c ∈ r.data ++ ':' :: ':' :: b.data, SpecParse.isPySpace c = false := by
    intro c hc
    rcases List.mem_append.mp hc with h1 | h2
    · exact hwr c h1
    · rcases List.mem_cons.mp h2 with h3 | h4
      · subst h3; decide
      · rcases List.mem_cons.mp h4 with h5 | h6
        · subst h5; decide
        · exact hwb c h6
  have hwsB : ∀ c ∈ k.data ++ '=' :: v.data, SpecParse.isPySpace c = false := by
    intro c hc
    rcases List.mem_append.mp hc with h1 | h2
    · exact hwk c h1
    · rcases List.mem_cons.mp h2 with h3 | h4
      · subst h3; decide
      · exact hwv c h4
  have hwsAll : ∀ c ∈ (r.data ++ ':' :: ':' :: b.data) ++ '?' :: (k.data ++ '=' :: v.data),
      SpecParse.isPySpace c = false := by
    intro c hc
    rcases List.mem_append.mp hc with h1 | h2
    · exact hwsA c h1
    · rcases List.mem_cons.mp h2 with h3 | h4
      · subst h3; decide
      · exact hwsB c h4
  have hqB : ('?' : Char) ∉ k.data ++ '=' :: v.data := by
    intro hm
    rcases List.mem_append.mp hm with h1 | h2
    · exact hqk h1
    · rcases List.mem_cons.mp h2 with h3 | h4
      · exact absurd h3 (by decide)
      · exact hqv h4
  have hstrip : SpecParse.pstrip (r ++ "::" ++ b ++ "?" ++ k ++ "=" ++ v).data =
      (r.data ++ ':' :: ':' :: b.data) ++ '?' :: (k.data ++ '=' :: v.data) := by
    rw [hdata]
    exact SpecParse.pstrip_nospace _ hwsAll
  have hps : SpecParse.paramsSplit
      ((r.data ++ ':' :: ':' :: b.data) ++ '?' :: (k.data ++ '=' :: v.data)) =
      (r.data ++ ':' :: ':' :: b.data,
        [(k, v), ("__raw_extra_ctx__", k ++ "=" ++ v)]) := by
    rw [SpecParse.paramsSplit_split _ _ _ (SpecParse.rsplitLast_boundary '?' _ _ hqB)]
    rw [SpecParse.pstrip_nospace _ hwsA, SpecParse.pstrip_nospace _ hwsB]
    rw [SpecParse.parse_qsl_single k.data v.data hak hav hpk hpv hlk hlv hek]
    have hkv : SpecParse.strOf (k.data ++ '=' :: v.data) = k ++ "=" ++ v := by
      have h1 : (k ++ "=" ++ v).data = k.data ++ '=' :: v.data := by
        simp [String.data_append]
      rw [← h1, SpecParse.strOf_data]
    rw [List.map_cons, List.map_nil]
    rw [SpecParse.strOf_data, SpecParse.strOf_data, hkv]
    show (_, SpecParse.dictUpd (SpecParse.dictOf [(k, v)]) "__raw_extra_ctx__" (k ++ "=" ++ v)) = _
    rw [show SpecParse.dictOf [(k, v)] = [(k, v)] from rfl]
    rw [SpecParse.dictUpd_push k v "__raw_extra_ctx__" (k ++ "=" ++ v) (fun e => hkr e.symm)]
  have hrs : SpecParse.resolverSplit (r.data ++ ':' :: ':' :: b.data) = (r.data, b.data) := by
    rw [SpecParse.resolverSplit_split _ _ _
      (SpecParse.splitColonColon_boundary r.data b.data hrc)]
    rw [SpecParse.pstrip_nospace _ hwr, SpecParse.pstrip_nospace _ hwb]
  constructor
  · show SpecParse.strOf (if (SpecParse.resolverSplit (SpecParse.paramsSplit
        (SpecParse.pstrip (r ++ "::" ++ b ++ "?" ++ k ++ "=" ++ v).data)).1).1 = []
          then dflt.data
          else (SpecParse.resolverSplit (SpecParse.paramsSplit
            (SpecParse.pstrip (r ++ "::" ++ b ++ "?" ++ k ++ "=" ++ v).data)).1).1) ++
        "::" ++ SpecParse.strOf (SpecParse.resolverSplit (SpecParse.paramsSplit
          (SpecParse.pstrip (r ++ "::" ++ b ++ "?" ++ k ++ "=" ++ v).data)).1).2 =
      r ++ "::" ++ b
    rw [hstrip, hps]
    show SpecParse.strOf (if (SpecParse.resolverSplit (r.data ++ ':' :: ':' :: b.data)).1 = []
        then dflt.data else (SpecParse.resolverSplit (r.data ++ ':' :: ':' :: b.data)).1) ++
      "::" ++ SpecParse.strOf (SpecParse.resolverSplit (r.data ++ ':' :: ':' :: b.data)).2 =
      r ++ "::" ++ b
    rw [hrs]
    show SpecParse.strOf (if r.data = [] then dflt.data else r.data) ++ "::" ++
      SpecParse.strOf b.data = r ++ "::" ++ b
    rw [if_neg hr0, SpecParse.strOf_data, SpecParse.strOf_data]
  · show (SpecParse.paramsSplit
      (SpecParse.pstrip (r ++ "::" ++ b ++ "?" ++ k ++ "=" ++ v).data)).2 = _
    rw [hstrip, hps]

/-- A concrete run of the amended round-trip theorem on resolver "pipx",
body "confctl", key "mode" and value "dev". -/
theorem spec_query_roundtrip_witness :
    (SpecParse.parse_spec ("pipx" ++ "::" ++ "confctl" ++ "?" ++ "mode" ++ "=" ++ "dev")
        "conf").fqn = "pipx" ++ "::" ++ "confctl" ∧
    (SpecParse.parse_spec ("pipx" ++ "::" ++ "confctl" ++ "?" ++ "mode" ++ "=" ++ "dev")
        "conf").params =
      [("mode", "dev"), ("__raw_extra_ctx__", "mode" ++ "=" ++ "dev")] := by
  exact spec_query_roundtrip "pipx" "confctl" "mode" "dev" "conf"
    (by decide) (by decide) (by decide) (by decide) (by decide) (by decide) (by decide)
    (by decide) (by decide) (by decide) (by decide) (by decide) (by decide)

/-! ## Operation tracking (confctl/wire/events.py, confctl/ops_tracking.py)

OpsTracking.op mints a fresh op id (op name, a dash, and the next value of
the global monotone seq_id counter), appends it to the ambient active op
path, emits Start, runs the wrapped body (children nest under the extended
path; body logs are emitted at the new path), emits Error with the rendered
message and traceback when the body raises, and always emits Finish last,
restoring the ambient path.  A worker run is modelled as a Body: a sequence
of logs, progress reports and child operations, optionally ending in a
raise; runB executes a Body at a given parent path, threading the counter,
and returns the emitted event list. -/

namespace Track

/-- The decimal digit characters of Python str(n). -/
def digitChar : Nat → Char
  | 0 => '0'
  | 1 => '1'
  | 2 => '2'
  | 3 => '3'
  | 4 => '4'
  | 5 => '5'
  | 6 => '6'
  | 7 => '7'
  | 8 => '8'
  | 9 => '9'
  | _ => '*'

/-- Fuel-driven most-significant-first decimal rendering of a positive
number (digit list of n, highest digit first). -/
def natReprCore : Nat → Nat → List Char
  | 0, _ => []
  | f + 1, n => if n = 0 then [] else natReprCore f (n / 10) ++ [digitChar (n % 10)]

/-- Python str(n) for a natural number. -/
def natRepr (n : Nat) : List Char :=
  if n = 0 then ['0'] else natReprCore (n + 1) n

theorem digitChar_ne_dash : ∀ d : Nat, digitChar d ≠ '-'
  | 0 => by decide
  | 1 => by decide
  | 2 => by decide
  | 3 => by decide
  | 4 => by decide
  | 5 => by decide
  | 6 => by decide
  | 7 => by decide
  | 8 => by decide
  | 9 => by decide
  | n + 10 => by
    intro h
    rw [show digitChar (n + 10) = '*' from rfl] at h
    exact absurd h (by decide)

theorem digitChar_inj_lt : ∀ a < 10, ∀ b < 10, digitChar a = digitChar b → a = b := by
  decide

theorem natReprCore_eq_digits : ∀ (f n : Nat), n < f →
    natReprCore f n = ((Nat.digits 10 n).map digitChar).reverse := by
  intro f
  induction f with
  | zero => intro n h; exact absurd h (Nat.not_lt_zero n)
  | succ f ih =>
    intro n h
    by_cases hn : n = 0
    · subst hn
      simp [natReprCore]
    · rw [natReprCore, if_neg hn]
      have hdiv : n / 10 < f := by
        have h1 : n / 10 < n := Nat.div_lt_self (Nat.pos_of_ne_zero hn) (by norm_num)
        omega
      rw [ih (n / 10) hdiv]
      rw [Nat.digits_def' (by norm_num : 1 < 10) (Nat.pos_of_ne_zero hn)]
      simp

theorem natRepr_eq_digits (n : Nat) (hn : n ≠ 0) :
    natRepr n = ((Nat.digits 10 n).map digitChar).reverse := by
  rw [natRepr, if_neg hn]
  exact natReprCore_eq_digits (n + 1) n (Nat.lt_succ_self n)

theorem natRepr_no_dash (n : Nat) : ('-' : Char) ∉ natRepr n := by
  by_cases hn : n = 0
  · subst hn; decide
  · rw [natRepr_eq_digits n hn]
    intro hm
    rw [List.mem_reverse] at hm
    obtain ⟨d, -, hd⟩ := List.mem_map.mp hm
    exact digitChar_ne_dash d hd

theorem map_digitChar_inj : ∀ (ds es : List Nat), (∀ d ∈ ds, d < 10) → (∀ e ∈ es, e < 10) →
    ds.map digitChar = es.map digitChar → ds = es := by
  intro ds
  induction ds with
  | nil =>
    intro es _ _ h
    cases es with
    | nil => rfl
    | cons e es2 => simp at h
  | cons d ds2 ih =>
    intro es hds hes h
    cases es with
    | nil => simp at h
    | cons e es2 =>
      rw [List.map_cons, List.map_cons] at h
      obtain ⟨h1, h2⟩ := List.cons.inj h
      have hd := hds d (List.mem_cons_self d ds2)
      have he := hes e (List.mem_cons_self e es2)
      have hde := digitChar_inj_lt d hd e he h1
      rw [hde, ih es2 (fun x hx => hds x (List.mem_cons_of_mem d hx))
        (fun x hx => hes x (List.mem_cons_of_mem e hx)) h2]

theorem natRepr_inj (m n : Nat) (h : natRepr m = natRepr n) : m = n := by
  by_cases hm : m = 0 <;> by_cases hn : n = 0
  · rw [hm, hn]
  · exfalso
    rw [hm] at h
    rw [natRepr_eq_digits n hn] at h
    have h2 : (Nat.digits 10 n).map digitChar = ['0'] := by
      have := congrArg List.reverse h
      simpa using this.symm
    have hlen : (Nat.digits 10 n).length = 1 := by
      have := congrArg List.length h2
      simpa using this
    obtain ⟨d, hd⟩ : ∃ d, Nat.digits 10 n = [d] := by
      cases hds : Nat.digits 10 n with
      | nil => rw [hds] at hlen; simp at hlen
      | cons d t =>
        cases t with
        | nil => exact ⟨d, rfl⟩
        | cons d2 t2 => rw [hds] at hlen; simp at hlen
    rw [hd] at h2
    have hd0 : digitChar d = '0' := by
      have := List.cons.inj h2
      exact this.1
    have hdlt : d < 10 := Nat.digits_lt_base (by norm_num) (hd ▸ List.mem_cons_self d [])
    have : d = 0 := digitChar_inj_lt d hdlt 0 (by norm_num) (by rw [hd0]; rfl)
    subst this
    have h4 := Nat.ofDigits_digits 10 n
    rw [hd] at h4
    exact hn (by simpa [Nat.ofDigits] using h4.symm)
  · exfalso
    rw [hn] at h
    rw [natRepr_eq_digits m hm] at h
    have h2 : (Nat.digits 10 m).map digitChar = ['0'] := by
      have := congrArg List.reverse h
      simpa using this
    have hlen : (Nat.digits 10 m).length = 1 := by
      have := congrArg List.length h2
      simpa using this
    obtain ⟨d, hd⟩ : ∃ d, Nat.digits 10 m = [d] := by
      cases hds : Nat.digits 10 m with
      | nil => rw [hds] at hlen; simp at hlen
      | cons d t =>
        cases t with
        | nil => exact ⟨d, rfl⟩
        | cons d2 t2 => rw [hds] at hlen; simp at hlen
    rw [hd] at h2
    have hd0 : digitChar d = '0' := (List.cons.inj h2).1
    have hdlt : d < 10 := Nat.digits_lt_base (by norm_num) (hd ▸ List.mem_cons_self d [])
    have : d = 0 := digitChar_inj_lt d hdlt 0 (by norm_num) (by rw [hd0]; rfl)
    subst this
    have h4 := Nat.ofDigits_digits 10 m
    rw [hd] at h4
    exact hm (by simpa [Nat.ofDigits] using h4.symm)
  · rw [natRepr_eq_digits m hm, natRepr_eq_digits n hn] at h
    have h2 := congrArg List.reverse h
    simp only [List.reverse_reverse] at h2
    have h3 := map_digitChar_inj (Nat.digits 10 m) (Nat.digits 10 n)
      (fun d hd => Nat.digits_lt_base (by norm_num) hd)
      (fun d hd => Nat.digits_lt_base (by norm_num) hd) h2
    calc m = Nat.ofDigits 10 (Nat.digits 10 m) := (Nat.ofDigits_digits 10 m).symm
    _ = Nat.ofDigits 10 (Nat.digits 10 n) := by rw [h3]
    _ = n := Nat.ofDigits_digits 10 n

/-- OpsTracking.get_op_id: the freshly minted op id, the op name, a dash
and the next counter value. -/
def get_op_id (op_name : String) (seq : Nat) : String :=
  ⟨op_name.data ++ '-' :: natRepr seq⟩

theorem dashfree_mid_inj : ∀ (as bs xs ys : List Char), ('-' : Char) ∉ as → ('-' : Char) ∉ bs →
    as ++ '-' :: xs = bs ++ '-' :: ys → as = bs ∧ xs = ys := by
  intro as
  induction as with
  | nil =>
    intro bs xs ys _ hbs h
    cases bs with
    | nil =>
      simp only [List.nil_append] at h
      exact ⟨rfl, (List.cons.inj h).2⟩
    | cons b bs2 =>
      simp only [List.nil_append, List.cons_append] at h
      have hb : b = '-' := (List.cons.inj h).1.symm
      exact absurd (hb ▸ List.mem_cons_self b bs2) hbs
  | cons a as2 ih =>
    intro bs xs ys has hbs h
    cases bs with
    | nil =>
      simp only [List.nil_append, List.cons_append] at h
      have ha : a = '-' := (List.cons.inj h).1
      exact absurd (ha ▸ List.mem_cons_self a as2) has
    | cons b bs2 =>
      simp only [List.cons_append] at h
      obtain ⟨hab, hrest⟩ := List.cons.inj h
      obtain ⟨h1, h2⟩ := ih bs2 xs ys (fun hm => has (List.mem_cons_of_mem a hm))
        (fun hm => hbs (List.mem_cons_of_mem b hm)) hrest
      exact ⟨by rw [hab, h1], h2⟩

/-- Distinct counter values mint distinct op ids, whatever the op names. -/
theorem get_op_id_inj_seq (n1 n2 : String) (s1 s2 : Nat)
    (h : get_op_id n1 s1 = get_op_id n2 s2) : s1 = s2 := by
  have hdata : n1.data ++ '-' :: natRepr s1 = n2.data ++ '-' :: natRepr s2 :=
    congrArg String.data h
  have hdash1 : ('-' : Char) ∉ n1.data ++ '-' :: natRepr s1 →
      ('-' : Char) ∉ n2.data ++ '-' :: natRepr s2 := by intro h1; rw [← hdata]; exact h1
  have hrev := congrArg List.reverse hdata
  simp only [List.reverse_append, List.reverse_cons] at hrev
  have hrev2 : (natRepr s1).reverse ++ '-' :: n1.data.reverse =
      (natRepr s2).reverse ++ '-' :: n2.data.reverse := by
    have e1 : ∀ (ds : List Char) (ns : List Char),
        (ds.reverse ++ ['-']) ++ ns = ds.reverse ++ '-' :: ns := by
      intro ds ns
      rw [List.append_assoc]
      rfl
    rw [e1, e1] at hrev
    exact hrev
  have hnd1 : ('-' : Char) ∉ (natRepr s1).reverse := by
    intro hm
    exact natRepr_no_dash s1 (List.mem_reverse.mp hm)
  have hnd2 : ('-' : Char) ∉ (natRepr s2).reverse := by
    intro hm
    exact natRepr_no_dash s2 (List.mem_reverse.mp hm)
  obtain ⟨h1, -⟩ := dashfree_mid_inj _ _ _ _ hnd1 hnd2 hrev2
  exact natRepr_inj s1 s2 (by
    have := congrArg List.reverse h1
    simpa using this)

/-- The wire events of confctl/wire/events.py (EvOpStart, EvOpLog,
EvOpProgress, EvOpError, EvOpFinish, EvDebug), reduced to their op path and
error payload; Start also carries the op kind. -/
inductive Ev where
  | start (op : String) (path : List String)
  | logE (path : List String) (msg : String)
  | progressE (path : List String)
  | errorE (path : List String) (error : String) (tb : String)
  | finishE (path : List String)
  | debugE (path : List String) (msg : String)
deriving DecidableEq

/-- The op_path an event is addressed to. -/
def Ev.path : Ev → List String
  | .start _ p => p
  | .logE p _ => p
  | .progressE p => p
  | .errorE p _ _ => p
  | .finishE p => p
  | .debugE p _ => p

/-- Events that only the op context manager itself emits at its own path. -/
def Ev.atOp : Ev → Bool
  | .start _ _ => true
  | .errorE _ _ _ => true
  | .finishE _ => true
  | _ => false

/-- The body of one tracked execution: a sequence of log lines, progress
reports and nested tracked operations, ending either normally or in a raised
exception (with its rendered message and traceback); a nested operation
carries its own inner body.  An exception raised inside a child is re-raised
into the parent body (unless failsafe policy mutes it), which is expressed
by the parent body ending in raised right after that child. -/
inductive Body where
  | done
  | raised (error : String) (tb : String)
  | logB (msg : String) (rest : Body)
  | progB (rest : Body)
  | node (op : String) (inner : Body) (rest : Body)
deriving DecidableEq

/-- Whether a body terminates by raising, and with which payload. -/
def bodyRaises : Body → Option (String × String)
  | .done => none
  | .raised e tb => some (e, tb)
  | .logB _ r => bodyRaises r
  | .progB r => bodyRaises r
  | .node _ _ r => bodyRaises r

/-- The terminal events of one op: Error (when the body raised) then Finish,
as emitted by the except/finally clauses of OpsTracking.op. -/
def opTail (path : List String) : Option (String × String) → List Ev
  | some (e, tb) => [.errorE path e tb, .finishE path]
  | none => [.finishE path]

/-- Run a body at ambient op path pp with counter c: logs and progress are
emitted at pp; a nested op mints id (name, counter), emits Start at the
extended path, runs its inner body there, emits Error-on-raise and Finish,
and the following events continue at pp with the threaded counter. -/
def runB : List String → Nat → Body → List Ev × Nat
  | _, c, .done => ([], c)
  | _, c, .raised _ _ => ([], c)
  | pp, c, .logB m rest =>
    ((.logE pp m) :: (runB pp c rest).1, (runB pp c rest).2)
  | pp, c, .progB rest =>
    ((.progressE pp) :: (runB pp c rest).1, (runB pp c rest).2)
  | pp, c, .node nm inner rest =>
    ((.start nm (pp ++ [get_op_id nm c]) ::
        ((runB (pp ++ [get_op_id nm c]) (c + 1) inner).1 ++
          opTail (pp ++ [get_op_id nm c]) (bodyRaises inner))) ++
      (runB pp (runB (pp ++ [get_op_id nm c]) (c + 1) inner).2 rest).1,
      (runB pp (runB (pp ++ [get_op_id nm c]) (c + 1) inner).2 rest).2)

theorem runB_counter_le : ∀ (b : Body) (pp : List String) (c : Nat), c ≤ (runB pp c b).2 := by
  intro b
  induction b with
  | done => intro pp c; exact le_refl c
  | raised e tb => intro pp c; exact le_refl c
  | logB m rest ih => intro pp c; exact ih pp c
  | progB rest ih => intro pp c; exact ih pp c
  | node nm inner rest ih1 ih2 =>
    intro pp c
    calc c ≤ c + 1 := Nat.le_succ c
    _ ≤ (runB (pp ++ [get_op_id nm c]) (c + 1) inner).2 := ih1 _ _
    _ ≤ (runB pp (runB (pp ++ [get_op_id nm c]) (c + 1) inner).2 rest).2 := ih2 _ _

/-- Every event of a run is addressed at or (path-wise) below the ambient
path. -/
theorem runB_pre : ∀ (b : Body) (pp : List String) (c : Nat), ∀ ev ∈ (runB pp c b).1,
    ∃ t, ev.path = pp ++ t := by
  intro b
  induction b with
  | done => intro pp c ev hm; simp [runB] at hm
  | raised e tb => intro pp c ev hm; simp [runB] at hm
  | logB m rest ih =>
    intro pp c ev hm
    rcases List.mem_cons.mp hm with h1 | h2
    · subst h1; exact ⟨[], by simp [Ev.path]⟩
    · exact ih pp c ev h2
  | progB rest ih =>
    intro pp c ev hm
    rcases List.mem_cons.mp hm with h1 | h2
    · subst h1; exact ⟨[], by simp [Ev.path]⟩
    · exact ih pp c ev h2
  | node nm inner rest ih1 ih2 =>
    intro pp c ev hm
    rcases List.mem_append.mp hm with h1 | h2
    · rcases List.mem_cons.mp h1 with h3 | h4
      · subst h3; exact ⟨[get_op_id nm c], rfl⟩
      · rcases List.mem_append.mp h4 with h5 | h6
        · obtain ⟨t, ht⟩ := ih1 (pp ++ [get_op_id nm c]) (c + 1) ev h5
          exact ⟨get_op_id nm c :: t, by rw [ht]; simp⟩
        · cases hr : bodyRaises inner with
          | none =>
            rw [hr] at h6
            rcases List.mem_cons.mp h6 with h7 | h8
            · subst h7; exact ⟨[get_op_id nm c], rfl⟩
            · simp at h8
          | some p =>
            rw [hr] at h6
            rcases List.mem_cons.mp h6 with h7 | h8
            · subst h7; exact ⟨[get_op_id nm c], rfl⟩
            · rcases List.mem_cons.mp h8 with h9 | h10
              · subst h9; exact ⟨[get_op_id nm c], rfl⟩
              · simp at h10
    · exact ih2 pp _ ev h2

/-- Shape of an event path relative to the run: either a body-level event at
the ambient path itself, or an event lying under an op freshly minted inside
the run (its counter in the run's counter window). -/
theorem runB_shape : ∀ (b : Body) (pp : List String) (c : Nat), ∀ ev ∈ (runB pp c b).1,
    (Ev.atOp ev = false ∧ ev.path = pp) ∨
    ∃ nm k s, ev.path = pp ++ get_op_id nm k :: s ∧ c ≤ k ∧ k < (runB pp c b).2 := by
  intro b
  induction b with
  | done => intro pp c ev hm; simp [runB] at hm
  | raised e tb => intro pp c ev hm; simp [runB] at hm
  | logB m rest ih =>
    intro pp c ev hm
    rcases List.mem_cons.mp hm with h1 | h2
    · subst h1; exact Or.inl ⟨rfl, rfl⟩
    · exact ih pp c ev h2
  | progB rest ih =>
    intro pp c ev hm
    rcases List.mem_cons.mp hm with h1 | h2
    · subst h1; exact Or.inl ⟨rfl, rfl⟩
    · exact ih pp c ev h2
  | node nm inner rest ih1 ih2 =>
    intro pp c ev hm
    have hc1 : c + 1 ≤ (runB (pp ++ [get_op_id nm c]) (c + 1) inner).2 :=
      runB_counter_le inner _ _
    have hc2 : (runB (pp ++ [get_op_id nm c]) (c + 1) inner).2 ≤
        (runB pp (runB (pp ++ [get_op_id nm c]) (c + 1) inner).2 rest).2 :=
      runB_counter_le rest _ _
    have hcw : c < (runB pp (runB (pp ++ [get_op_id nm c]) (c + 1) inner).2 rest).2 := by
      omega
    rcases List.mem_append.mp hm with h1 | h2
    · rcases List.mem_cons.mp h1 with h3 | h4
      · subst h3
        exact Or.inr ⟨nm, c, [], rfl, le_refl c, hcw⟩
      · rcases List.mem_append.mp h4 with h5 | h6
        · obtain ⟨t, ht⟩ := runB_pre inner (pp ++ [get_op_id nm c]) (c + 1) ev h5
          refine Or.inr ⟨nm, c, t, ?_, le_refl c, hcw⟩
          rw [ht]
          simp
        · have hpath : ev.path = pp ++ [get_op_id nm c] := by
            cases hr : bodyRaises inner with
            | none =>
              rw [hr] at h6
              rcases List.mem_cons.mp h6 with h7 | h8
              · subst h7; rfl
              · simp at h8
            | some p =>
              rw [hr] at h6
              rcases List.mem_cons.mp h6 with h7 | h8
              · subst h7; rfl
              · rcases List.mem_cons.mp h8 with h9 | h10
                · subst h9; rfl
                · simp at h10
          exact Or.inr ⟨nm, c, [], hpath, le_refl c, hcw⟩
    · rcases ih2 pp (runB (pp ++ [get_op_id nm c]) (c + 1) inner).2 ev h2 with h3 | h4
      · exact Or.inl h3
      · obtain ⟨nm2, k, s, hp, hk1, hk2⟩ := h4
        exact Or.inr ⟨nm2, k, s, hp, by omega, hk2⟩

theorem append_cons_inj {α : Type} (pp : List α) (a b : α) (s t : List α)
    (h : pp ++ a :: s = pp ++ b :: t) : a = b ∧ s = t :=
  List.cons.inj (List.append_cancel_left h)

theorem split_middle {α : Type} (xs ys l1 l2 : List α) (a : α) (h : xs ++ ys = l1 ++ a :: l2) :
    (∃ m2, xs = l1 ++ a :: m2 ∧ l2 = m2 ++ ys) ∨
    (∃ m1, ys = m1 ++ a :: l2 ∧ l1 = xs ++ m1) := by
  rcases List.append_eq_append_iff.mp h with ⟨u, hu1, hu2⟩ | ⟨u, hu1, hu2⟩
  · exact Or.inr ⟨u, hu2, hu1⟩
  · cases u with
    | nil =>
      simp only [List.append_nil] at hu1
      simp only [List.nil_append] at hu2
      refine Or.inr ⟨[], ?_, ?_⟩
      · rw [List.nil_append]
        exact hu2.symm
      · rw [List.append_nil]
        exact hu1.symm
    | cons hd t =>
      obtain ⟨hhd, hl2⟩ := List.cons.inj hu2
      subst hhd
      exact Or.inl ⟨t, hu1, hl2⟩

/-- The paths carried by Start events, in emission order. -/
def startPaths (evs : List Ev) : List (List String) :=
  evs.filterMap (fun ev => match ev with | .start _ p => some p | _ => none)

/-- The paths carried by Finish events, in emission order. -/
def finishPaths (evs : List Ev) : List (List String) :=
  evs.filterMap (fun ev => match ev with | .finishE p => some p | _ => none)

theorem startPaths_append (a b : List Ev) :
    startPaths (a ++ b) = startPaths a ++ startPaths b := List.filterMap_append a b _

theorem finishPaths_append (a b : List Ev) :
    finishPaths (a ++ b) = finishPaths a ++ finishPaths b := List.filterMap_append a b _

theorem mem_startPaths (evs : List Ev) (P : List String) :
    P ∈ startPaths evs ↔ ∃ op, Ev.start op P ∈ evs := by
  constructor
  · intro h
    obtain ⟨ev, hmem, hev⟩ := List.mem_filterMap.mp h
    cases ev with
    | start op p =>
      have : p = P := by simpa using hev
      exact ⟨op, this ▸ hmem⟩
    | logE p m => simp at hev
    | progressE p => simp at hev
    | errorE p e tb => simp at hev
    | finishE p => simp at hev
    | debugE p m => simp at hev
  · rintro ⟨op, hmem⟩
    exact List.mem_filterMap.mpr ⟨.start op P, hmem, rfl⟩

theorem mem_finishPaths (evs : List Ev) (P : List String) :
    P ∈ finishPaths evs ↔ Ev.finishE P ∈ evs := by
  constructor
  · intro h
    obtain ⟨ev, hmem, hev⟩ := List.mem_filterMap.mp h
    cases ev with
    | start op p => simp at hev
    | logE p m => simp at hev
    | progressE p => simp at hev
    | errorE p e tb => simp at hev
    | finishE p =>
      have : p = P := by simpa using hev
      exact this ▸ hmem
    | debugE p m => simp at hev
  · intro hmem
    exact List.mem_filterMap.mpr ⟨.finishE P, hmem, rfl⟩

theorem startPaths_opTail (q : List String) (o : Option (String × String)) :
    startPaths (opTail q o) = [] := by
  cases o with
  | none => rfl
  | some p => cases p; rfl

theorem finishPaths_opTail (q : List String) (o : Option (String × String)) :
    finishPaths (opTail q o) = [q] := by
  cases o with
  | none => rfl
  | some p => cases p; rfl

theorem runB_start_window (b : Body) (pp : List String) (c : Nat) (op : String)
    (P : List String) (h : Ev.start op P ∈ (runB pp c b).1) :
    ∃ nm k s, P = pp ++ get_op_id nm k :: s ∧ c ≤ k ∧ k < (runB pp c b).2 := by
  rcases runB_shape b pp c (.start op P) h with ⟨hfalse, -⟩ | h2
  · simp [Ev.atOp] at hfalse
  · exact h2

theorem runB_finish_window (b : Body) (pp : List String) (c : Nat)
    (P : List String) (h : Ev.finishE P ∈ (runB pp c b).1) :
    ∃ nm k s, P = pp ++ get_op_id nm k :: s ∧ c ≤ k ∧ k < (runB pp c b).2 := by
  rcases runB_shape b pp c (.finishE P) h with ⟨hfalse, -⟩ | h2
  · simp [Ev.atOp] at hfalse
  · exact h2

theorem node_path_ne_sibling (pp : List String) (nm nm2 : String) (c k : Nat) (s : List String)
    (hk : c ≠ k) : pp ++ [get_op_id nm c] ≠ pp ++ get_op_id nm2 k :: s := by
  intro h
  obtain ⟨hid, -⟩ := append_cons_inj pp (get_op_id nm c) (get_op_id nm2 k) [] s h
  exact hk (get_op_id_inj_seq nm nm2 c k hid)

theorem runB_startPaths_nodup : ∀ (b : Body) (pp : List String) (c : Nat),
    (startPaths (runB pp c b).1).Nodup := by
  intro b
  induction b with
  | done => intro pp c; simp [runB, startPaths]
  | raised e tb => intro pp c; simp [runB, startPaths]
  | logB m rest ih =>
    intro pp c
    show (startPaths (.logE pp m :: (runB pp c rest).1)).Nodup
    have : startPaths (.logE pp m :: (runB pp c rest).1) = startPaths (runB pp c rest).1 := rfl
    rw [this]
    exact ih pp c
  | progB rest ih =>
    intro pp c
    show (startPaths (.progressE pp :: (runB pp c rest).1)).Nodup
    have : startPaths (.progressE pp :: (runB pp c rest).1) = startPaths (runB pp c rest).1 := rfl
    rw [this]
    exact ih pp c
  | node nm inner rest ih1 ih2 =>
    intro pp c
    have hc1 : c + 1 ≤ (runB (pp ++ [get_op_id nm c]) (c + 1) inner).2 :=
      runB_counter_le inner _ _
    have heq : startPaths (runB pp c (.node nm inner rest)).1 =
        (pp ++ [get_op_id nm c]) ::
          (startPaths (runB (pp ++ [get_op_id nm c]) (c + 1) inner).1 ++
            startPaths (runB pp (runB (pp ++ [get_op_id nm c]) (c + 1) inner).2 rest).1) := by
      show startPaths ((.start nm (pp ++ [get_op_id nm c]) :: _) ++ _) = _
      rw [startPaths_append]
      show (pp ++ [get_op_id nm c]) :: startPaths (_ ++ opTail _ _) ++ _ = _
      rw [startPaths_append, startPaths_opTail, List.append_nil]
      rfl
    rw [heq]
    rw [List.nodup_cons]
    refine ⟨?_, ?_⟩
    · intro hmem
      rcases List.mem_append.mp hmem with h1 | h2
      · obtain ⟨op, hst⟩ := (mem_startPaths _ _).mp h1
        obtain ⟨nm2, k, s, hP, -, -⟩ :=
          runB_start_window inner (pp ++ [get_op_id nm c]) (c + 1) op _ hst
        have := congrArg List.length hP
        simp at this
      · obtain ⟨op, hst⟩ := (mem_startPaths _ _).mp h2
        obtain ⟨nm2, k, s, hP, hk1, -⟩ :=
          runB_start_window rest pp (runB (pp ++ [get_op_id nm c]) (c + 1) inner).2 op _ hst
        exact node_path_ne_sibling pp nm nm2 c k s (by omega) hP
    · rw [List.nodup_append]
      refine ⟨ih1 _ _, ih2 _ _, ?_⟩
      intro P h1 h2
      obtain ⟨op1, hst1⟩ := (mem_startPaths _ _).mp h1
      obtain ⟨op2, hst2⟩ := (mem_startPaths _ _).mp h2
      obtain ⟨nmA, j, t, hPA, hj1, -⟩ :=
        runB_start_window inner (pp ++ [get_op_id nm c]) (c + 1) op1 _ hst1
      obtain ⟨nmB, k, s, hPB, hk1, -⟩ :=
        runB_start_window rest pp (runB (pp ++ [get_op_id nm c]) (c + 1) inner).2 op2 _ hst2
      rw [hPB] at hPA
      have hPA2 : pp ++ get_op_id nmB k :: s =
          pp ++ get_op_id nm c :: (get_op_id nmA j :: t) := by
        rw [hPA]
        simp
      obtain ⟨hid, -⟩ := append_cons_inj pp _ _ _ _ hPA2
      have := get_op_id_inj_seq nmB nm k c hid
      omega

theorem runB_finishPaths_nodup : ∀ (b : Body) (pp : List String) (c : Nat),
    (finishPaths (runB pp c b).1).Nodup := by
  intro b
  induction b with
  | done => intro pp c; simp [runB, finishPaths]
  | raised e tb => intro pp c; simp [runB, finishPaths]
  | logB m rest ih =>
    intro pp c
    show (finishPaths (.logE pp m :: (runB pp c rest).1)).Nodup
    have : finishPaths (.logE pp m :: (runB pp c rest).1) = finishPaths (runB pp c rest).1 := rfl
    rw [this]
    exact ih pp c
  | progB rest ih =>
    intro pp c
    show (finishPaths (.progressE pp :: (runB pp c rest).1)).Nodup
    have : finishPaths (.progressE pp :: (runB pp c rest).1) =
      finishPaths (runB pp c rest).1 := rfl
    rw [this]
    exact ih pp c
  | node nm inner rest ih1 ih2 =>
    intro pp c
    have hc1 : c + 1 ≤ (runB (pp ++ [get_op_id nm c]) (c + 1) inner).2 :=
      runB_counter_le inner _ _
    have heq : finishPaths (runB pp c (.node nm inner rest)).1 =
        (finishPaths (runB (pp ++ [get_op_id nm c]) (c + 1) inner).1 ++
          [pp ++ [get_op_id nm c]]) ++
          finishPaths (runB pp (runB (pp ++ [get_op_id nm c]) (c + 1) inner).2 rest).1 := by
      show finishPaths ((.start nm (pp ++ [get_op_id nm c]) :: _) ++ _) = _
      rw [finishPaths_append]
      show finishPaths (_ ++ opTail _ _) ++ _ = _
      rw [finishPaths_append, finishPaths_opTail]
    rw [heq]
    rw [List.nodup_append]
    refine ⟨?_, ih2 _ _, ?_⟩
    · rw [List.nodup_append]
      refine ⟨ih1 _ _, by simp, ?_⟩
      intro P h1 h2
      have hP : P = pp ++ [get_op_id nm c] := by simpa using h2
      have hfin := (mem_finishPaths _ _).mp h1
      obtain ⟨nm2, k, s, hP2, -, -⟩ :=
        runB_finish_window inner (pp ++ [get_op_id nm c]) (c + 1) _ hfin
      rw [hP] at hP2
      have := congrArg List.length hP2
      simp at this
    · intro P h1 h2
      have hfin2 := (mem_finishPaths _ _).mp h2
      obtain ⟨nmB, k, s, hPB, hk1, -⟩ :=
        runB_finish_window rest pp (runB (pp ++ [get_op_id nm c]) (c + 1) inner).2 _ hfin2
      rcases List.mem_append.mp h1 with h3 | h4
      · have hfin1 := (mem_finishPaths _ _).mp h3
        obtain ⟨nmA, j, t, hPA, hj1, -⟩ :=
          runB_finish_window inner (pp ++ [get_op_id nm c]) (c + 1) _ hfin1
        rw [hPB] at hPA
        have hPA2 : pp ++ get_op_id nmB k :: s =
            pp ++ get_op_id nm c :: (get_op_id nmA j :: t) := by
          rw [hPA]
          simp
        obtain ⟨hid, -⟩ := append_cons_inj pp _ _ _ _ hPA2
        have := get_op_id_inj_seq nmB nm k c hid
        omega
      · have hP : P = pp ++ [get_op_id nm c] := by simpa using h4
        rw [hP] at hPB
        exact node_path_ne_sibling pp nm nmB c k s (by omega) hPB

theorem runB_finish_exists : ∀ (b : Body) (pp : List String) (c : Nat) (op : String)
    (P : List String), Ev.start op P ∈ (runB pp c b).1 → Ev.finishE P ∈ (runB pp c b).1 := by
  intro b
  induction b with
  | done => intro pp c op P h; simp [runB] at h
  | raised e tb => intro pp c op P h; simp [runB] at h
  | logB m rest ih =>
    intro pp c op P h
    rcases List.mem_cons.mp h with h1 | h2
    · exact absurd h1 (by simp)
    · exact List.mem_cons_of_mem _ (ih pp c op P h2)
  | progB rest ih =>
    intro pp c op P h
    rcases List.mem_cons.mp h with h1 | h2
    · exact absurd h1 (by simp)
    · exact List.mem_cons_of_mem _ (ih pp c op P h2)
  | node nm inner rest ih1 ih2 =>
    intro pp c op P h
    have hfin_tail : Ev.finishE (pp ++ [get_op_id nm c]) ∈
        opTail (pp ++ [get_op_id nm c]) (bodyRaises inner) := by
      cases bodyRaises inner with
      | none => simp [opTail]
      | some p => cases p; simp [opTail]
    rcases List.mem_append.mp h with h1 | h2
    · rcases List.mem_cons.mp h1 with h3 | h4
      · have hP : P = pp ++ [get_op_id nm c] := by
          have := (Ev.start.inj h3.symm).2
          exact this.symm
        refine List.mem_append.mpr (Or.inl ?_)
        refine List.mem_cons_of_mem _ (List.mem_append.mpr (Or.inr ?_))
        rw [hP]
        exact hfin_tail
      · rcases List.mem_append.mp h4 with h5 | h6
        · refine List.mem_append.mpr (Or.inl ?_)
          exact List.mem_cons_of_mem _ (List.mem_append.mpr (Or.inl (ih1 _ _ op P h5)))
        · exfalso
          cases hr : bodyRaises inner with
          | none => rw [hr] at h6; simp [opTail] at h6
          | some p => rw [hr] at h6; cases p; simp [opTail] at h6
    · exact List.mem_append.mpr (Or.inr (ih2 _ _ op P h2))

/-- Q lies at or below P in the path tree (P is an initial segment). -/
def pathLe (P Q : List String) : Prop := ∃ s, Q = P ++ s

/-- Q lies strictly below P in the path tree (Q strictly extends P). -/
def pathExt (P Q : List String) : Prop := ∃ s, s ≠ [] ∧ Q = P ++ s

theorem pathExt_length {P Q : List String} (h : pathExt P Q) : P.length < Q.length := by
  obtain ⟨s, hs, hq⟩ := h
  rw [hq, List.length_append]
  have : 0 < s.length := List.length_pos.mpr hs
  omega

theorem pathExt_irrefl_pair {P Q : List String} (h1 : pathExt P Q) (h2 : pathExt Q P) :
    False := by
  have := pathExt_length h1
  have := pathExt_length h2
  omega

theorem pathLe_of_ext {P Q : List String} (h : pathExt P Q) : pathLe P Q := by
  obtain ⟨s, -, hq⟩ := h
  exact ⟨s, hq⟩

theorem pathLe_comparable : ∀ (xs ys zs : List String), pathLe xs zs → pathLe ys zs →
    pathLe xs ys ∨ pathLe ys xs := by
  intro xs
  induction xs with
  | nil => intro ys zs _ _; exact Or.inl ⟨ys, rfl⟩
  | cons x xs2 ih =>
    intro ys zs h1 h2
    cases ys with
    | nil => exact Or.inr ⟨x :: xs2, rfl⟩
    | cons y ys2 =>
      obtain ⟨s, hs⟩ := h1
      obtain ⟨t, ht⟩ := h2
      rw [hs] at ht
      simp only [List.cons_append] at ht
      obtain ⟨hxy, hrest⟩ := List.cons.inj ht
      rcases ih ys2 (xs2 ++ s) ⟨s, rfl⟩ ⟨t, hrest⟩ with h3 | h4
      · obtain ⟨u, hu⟩ := h3
        exact Or.inl ⟨u, by rw [hxy, hu]; rfl⟩
      · obtain ⟨u, hu⟩ := h4
        exact Or.inr ⟨u, by rw [← hxy, hu]; rfl⟩

theorem pathExt_squeeze (pp P : List String) (x : String) (h1 : pathExt pp P)
    (h2 : pathLe P (pp ++ [x])) : P = pp ++ [x] := by
  obtain ⟨t, ht0, hP⟩ := h1
  obtain ⟨u, hu⟩ := h2
  rw [hP, List.append_assoc] at hu
  have htu : t ++ u = [x] := (List.append_cancel_left hu).symm
  have hlt : 0 < t.length := List.length_pos.mpr ht0
  have hlen := congrArg List.length htu
  simp [List.length_append] at hlen
  have hu0 : u = [] := by
    have hu0' : u.length = 0 := by omega
    exact List.length_eq_zero.mp hu0'
  rw [hu0, List.append_nil] at hu
  rw [hP]
  exact hu.symm

theorem pathExt_below_one (pp P : List String) (x : String) (h1 : pathExt pp P)
    (h2 : pathExt P (pp ++ [x])) : False := by
  obtain ⟨t, ht0, hP⟩ := h1
  obtain ⟨s, hs0, hq⟩ := h2
  rw [hP, List.append_assoc] at hq
  have hts : t ++ s = [x] := (List.append_cancel_left hq).symm
  have h3 : 0 < t.length := List.length_pos.mpr ht0
  have h4 : 0 < s.length := List.length_pos.mpr hs0
  have hlen := congrArg List.length hts
  simp [List.length_append] at hlen
  omega

theorem opTail_mem_path (q : List String) (o : Option (String × String)) (ev : Ev)
    (h : ev ∈ opTail q o) : ev.path = q := by
  cases o with
  | none =>
    rcases List.mem_cons.mp h with h1 | h2
    · subst h1; rfl
    · simp at h2
  | some p =>
    cases p
    rcases List.mem_cons.mp h with h1 | h2
    · subst h1; rfl
    · rcases List.mem_cons.mp h2 with h3 | h4
      · subst h3; rfl
      · simp at h4

theorem opTail_finish_mem (q : List String) (o : Option (String × String)) :
    Ev.finishE q ∈ opTail q o := by
  cases o with
  | none => simp [opTail]
  | some p => cases p; simp [opTail]

theorem opTail_finish_decomp (q : List String) (o : Option (String × String))
    (u1 u2 : List Ev) (P : List String)
    (h : opTail q o = u1 ++ Ev.finishE P :: u2) : P = q ∧ u2 = [] := by
  cases o with
  | none =>
    cases u1 with
    | nil =>
      simp only [opTail, List.nil_append] at h
      obtain ⟨h1, h2⟩ := List.cons.inj h
      exact ⟨(Ev.finishE.inj h1).symm, h2.symm⟩
    | cons e u1' =>
      simp only [opTail, List.cons_append] at h
      obtain ⟨-, h2⟩ := List.cons.inj h
      exact absurd h2.symm (by simp)
  | some p =>
    cases p with
    | mk e tb =>
      cases u1 with
      | nil =>
        simp only [opTail, List.nil_append] at h
        obtain ⟨h1, -⟩ := List.cons.inj h
        simp at h1
      | cons e1 u1' =>
        simp only [opTail, List.cons_append] at h
        obtain ⟨-, h2⟩ := List.cons.inj h
        cases u1' with
        | nil =>
          simp only [List.nil_append] at h2
          obtain ⟨h3, h4⟩ := List.cons.inj h2
          exact ⟨(Ev.finishE.inj h3).symm, h4.symm⟩
        | cons e2 u1'' =>
          simp only [List.cons_append] at h2
          obtain ⟨-, h4⟩ := List.cons.inj h2
          exact absurd h4.symm (by simp)

/-- Start-before and Finish-after: in any run, any event strictly below a
path P (itself strictly below the ambient path) is preceded by the Start of
P and followed by the Finish of P. -/
theorem runB_sandwich : ∀ (b : Body) (pp : List String) (c : Nat) (l1 l2 : List Ev)
    (ev : Ev) (P : List String), (runB pp c b).1 = l1 ++ ev :: l2 →
    pathExt pp P → pathExt P ev.path →
    (∃ op, Ev.start op P ∈ l1) ∧ Ev.finishE P ∈ l2 := by
  intro b
  induction b with
  | done =>
    intro pp c l1 l2 ev P h _ _
    exact absurd h (by cases l1 <;> simp [runB])
  | raised e tb =>
    intro pp c l1 l2 ev P h _ _
    exact absurd h (by cases l1 <;> simp [runB])
  | logB m rest ih =>
    intro pp c l1 l2 ev P h hP hev
    cases l1 with
    | nil =>
      simp only [List.nil_append] at h
      obtain ⟨h1, -⟩ : Ev.logE pp m = ev ∧ (runB pp c rest).1 = l2 := by
        have := List.cons.inj h
        exact ⟨this.1, this.2⟩
      rw [← h1] at hev
      exact absurd hev (fun hx => pathExt_irrefl_pair hP hx)
    | cons e l1' =>
      simp only [List.cons_append] at h
      obtain ⟨-, h2⟩ := List.cons.inj h
      obtain ⟨⟨op, hst⟩, hfin⟩ := ih pp c l1' l2 ev P h2 hP hev
      exact ⟨⟨op, List.mem_cons_of_mem _ hst⟩, hfin⟩
  | progB rest ih =>
    intro pp c l1 l2 ev P h hP hev
    cases l1 with
    | nil =>
      simp only [List.nil_append] at h
      obtain ⟨h1, -⟩ := List.cons.inj h
      rw [← h1] at hev
      exact absurd hev (fun hx => pathExt_irrefl_pair hP hx)
    | cons e l1' =>
      simp only [List.cons_append] at h
      obtain ⟨-, h2⟩ := List.cons.inj h
      obtain ⟨⟨op, hst⟩, hfin⟩ := ih pp c l1' l2 ev P h2 hP hev
      exact ⟨⟨op, List.mem_cons_of_mem _ hst⟩, hfin⟩
  | node nm inner rest ih1 ih2 =>
    intro pp c l1 l2 ev P h hP hev
    rw [show (runB pp c (.node nm inner rest)).1 =
      Ev.start nm (pp ++ [get_op_id nm c]) ::
        (((runB (pp ++ [get_op_id nm c]) (c + 1) inner).1 ++
          opTail (pp ++ [get_op_id nm c]) (bodyRaises inner)) ++
          (runB pp (runB (pp ++ [get_op_id nm c]) (c + 1) inner).2 rest).1) by
        simp [runB]] at h
    cases l1 with
    | nil =>
      simp only [List.nil_append] at h
      obtain ⟨h1, -⟩ := List.cons.inj h
      rw [← h1] at hev
      exact absurd hev (pathExt_below_one pp P (get_op_id nm c) hP)
    | cons e l1' =>
      simp only [List.cons_append] at h
      obtain ⟨he, h2⟩ := List.cons.inj h
      rcases split_middle _ _ l1' l2 ev h2 with ⟨m2, hx, hl2⟩ | ⟨m1, hy, hl1⟩
      · rcases split_middle _ _ l1' m2 ev hx with ⟨u2, hxi, hm2⟩ | ⟨u1, hxt, hl1t⟩
        · have hm : ev ∈ (runB (pp ++ [get_op_id nm c]) (c + 1) inner).1 := by
            rw [hxi]
            exact List.mem_append.mpr (Or.inr (List.mem_cons_self ev u2))
          obtain ⟨t0, ht0⟩ := runB_pre inner (pp ++ [get_op_id nm c]) (c + 1) ev hm
          have hcomp : pathLe P (pp ++ [get_op_id nm c]) ∨
              pathLe (pp ++ [get_op_id nm c]) P :=
            pathLe_comparable P (pp ++ [get_op_id nm c]) ev.path
              (pathLe_of_ext hev) ⟨t0, ht0⟩
          have hPq : P = pp ++ [get_op_id nm c] →
              (∃ op, Ev.start op P ∈ e :: l1') ∧ Ev.finishE P ∈ l2 := by
            intro hPeq
            constructor
            · refine ⟨nm, ?_⟩
              rw [hPeq, ← he]
              exact List.mem_cons_self _ _
            · rw [hl2, hm2]
              refine List.mem_append.mpr (Or.inl (List.mem_append.mpr (Or.inr ?_)))
              rw [hPeq]
              exact opTail_finish_mem _ _
          rcases hcomp with h3 | h4
          · exact hPq (pathExt_squeeze pp P (get_op_id nm c) hP h3)
          · obtain ⟨u, hu⟩ := h4
            cases u with
            | nil =>
              rw [List.append_nil] at hu
              exact hPq hu
            | cons uh ut =>
              have hext : pathExt (pp ++ [get_op_id nm c]) P := ⟨uh :: ut, by simp, hu⟩
              obtain ⟨⟨op, hst⟩, hfin⟩ :=
                ih1 (pp ++ [get_op_id nm c]) (c + 1) l1' u2 ev P hxi hext hev
              refine ⟨⟨op, List.mem_cons_of_mem _ hst⟩, ?_⟩
              rw [hl2, hm2]
              exact List.mem_append.mpr (Or.inl (List.mem_append.mpr (Or.inl hfin)))
        · have hm : ev ∈ opTail (pp ++ [get_op_id nm c]) (bodyRaises inner) := by
            rw [hxt]
            exact List.mem_append.mpr (Or.inr (List.mem_cons_self ev m2))
          have hq := opTail_mem_path _ _ ev hm
          rw [hq] at hev
          exact absurd hev (pathExt_below_one pp P (get_op_id nm c) hP)
      · obtain ⟨⟨op, hst⟩, hfin⟩ :=
          ih2 pp (runB (pp ++ [get_op_id nm c]) (c + 1) inner).2 m1 l2 ev P hy hP hev
        refine ⟨⟨op, ?_⟩, hfin⟩
        rw [hl1]
        exact List.mem_cons_of_mem _ (List.mem_append.mpr (Or.inr hst))

/-- Nothing addressed to a path P is emitted after the Finish of P. -/
theorem runB_after_finish : ∀ (b : Body) (pp : List String) (c : Nat) (l1 l2 : List Ev)
    (P : List String), (runB pp c b).1 = l1 ++ Ev.finishE P :: l2 →
    ∀ ev ∈ l2, ev.path ≠ P := by
  intro b
  induction b with
  | done =>
    intro pp c l1 l2 P h
    exact absurd h (by cases l1 <;> simp [runB])
  | raised e tb =>
    intro pp c l1 l2 P h
    exact absurd h (by cases l1 <;> simp [runB])
  | logB m rest ih =>
    intro pp c l1 l2 P h
    cases l1 with
    | nil =>
      simp only [List.nil_append] at h
      obtain ⟨h1, -⟩ := List.cons.inj h
      simp at h1
    | cons e l1' =>
      simp only [List.cons_append] at h
      obtain ⟨-, h2⟩ := List.cons.inj h
      exact ih pp c l1' l2 P h2
  | progB rest ih =>
    intro pp c l1 l2 P h
    cases l1 with
    | nil =>
      simp only [List.nil_append] at h
      obtain ⟨h1, -⟩ := List.cons.inj h
      simp at h1
    | cons e l1' =>
      simp only [List.cons_append] at h
      obtain ⟨-, h2⟩ := List.cons.inj h
      exact ih pp c l1' l2 P h2
  | node nm inner rest ih1 ih2 =>
    intro pp c l1 l2 P h
    have hc1 : c + 1 ≤ (runB (pp ++ [get_op_id nm c]) (c + 1) inner).2 :=
      runB_counter_le inner _ _
    rw [show (runB pp c (.node nm inner rest)).1 =
      Ev.start nm (pp ++ [get_op_id nm c]) ::
        (((runB (pp ++ [get_op_id nm c]) (c + 1) inner).1 ++
          opTail (pp ++ [get_op_id nm c]) (bodyRaises inner)) ++
          (runB pp (runB (pp ++ [get_op_id nm c]) (c + 1) inner).2 rest).1) by
        simp [runB]] at h
    have hrest_ne : ∀ (kmin : Nat), c < kmin →
        kmin ≤ (runB (pp ++ [get_op_id nm c]) (c + 1) inner).2 →
        ∀ ev ∈ (runB pp (runB (pp ++ [get_op_id nm c]) (c + 1) inner).2 rest).1,
        ∀ (Q : List String), pathLe (pp ++ [get_op_id nm c]) Q → ev.path ≠ Q := by
      intro kmin hk1 hk2 ev hm Q hQ heq
      obtain ⟨s0, hs0⟩ := hQ
      rcases runB_shape rest pp (runB (pp ++ [get_op_id nm c]) (c + 1) inner).2 ev hm
        with ⟨-, hpp⟩ | ⟨nm2, k, s, hp, hk3, -⟩
      · rw [heq, hs0] at hpp
        have := congrArg List.length hpp
        simp [List.length_append] at this
      · rw [heq, hs0] at hp
        have hp2 : pp ++ get_op_id nm c :: s0 = pp ++ get_op_id nm2 k :: s := by
          simpa using hp
        obtain ⟨hid, -⟩ := append_cons_inj pp _ _ _ _ hp2
        have := get_op_id_inj_seq nm nm2 c k hid
        omega
    cases l1 with
    | nil =>
      simp only [List.nil_append] at h
      obtain ⟨h1, -⟩ := List.cons.inj h
      simp at h1
    | cons e l1' =>
      simp only [List.cons_append] at h
      obtain ⟨-, h2⟩ := List.cons.inj h
      rcases split_middle _ _ l1' l2 (Ev.finishE P) h2 with ⟨m2, hx, hl2⟩ | ⟨m1, hy, -⟩
      · rcases split_middle _ _ l1' m2 (Ev.finishE P) hx with ⟨u2, hxi, hm2⟩ | ⟨u1, hxt, -⟩
        · have hfinP : Ev.finishE P ∈ (runB (pp ++ [get_op_id nm c]) (c + 1) inner).1 := by
            rw [hxi]
            exact List.mem_append.mpr (Or.inr (List.mem_cons_self _ u2))
          obtain ⟨nmA, j, t, hPA, hj1, -⟩ :=
            runB_finish_window inner (pp ++ [get_op_id nm c]) (c + 1) P hfinP
          intro ev hm
          rw [hl2, hm2] at hm
          rcases List.mem_append.mp hm with hm1 | hm2'
          · rcases List.mem_append.mp hm1 with hm3 | hm4
            · exact ih1 (pp ++ [get_op_id nm c]) (c + 1) l1' u2 P hxi ev hm3
            · have hq := opTail_mem_path _ _ ev hm4
              intro heq
              rw [heq, hPA] at hq
              have := congrArg List.length hq
              simp [List.length_append] at this
          · intro heq
            refine hrest_ne (c + 1) (Nat.lt_succ_self c) hc1 ev hm2' P ?_ heq
            rw [hPA]
            exact ⟨get_op_id nmA j :: t, by simp⟩
        · obtain ⟨hPq, hu2⟩ := opTail_finish_decomp _ _ u1 m2 P hxt
          intro ev hm
          rw [hl2, hu2, List.nil_append] at hm
          intro heq
          refine hrest_ne (c + 1) (Nat.lt_succ_self c) hc1 ev hm P ?_ heq
          rw [hPq]
          exact ⟨[], by simp⟩
      · intro ev hm
        exact ih2 pp (runB (pp ++ [get_op_id nm c]) (c + 1) inner).2 m1 l2 P hy ev hm

/-- Every Start path is its op name as kind prefix plus a minted counter,
appended to the parent path as one element. -/
theorem runB_start_id : ∀ (b : Body) (pp : List String) (c : Nat) (op : String)
    (P : List String), Ev.start op P ∈ (runB pp c b).1 →
    ∃ pp0 k, P = pp0 ++ [get_op_id op k] := by
  intro b
  induction b with
  | done => intro pp c op P h; simp [runB] at h
  | raised e tb => intro pp c op P h; simp [runB] at h
  | logB m rest ih =>
    intro pp c op P h
    rcases List.mem_cons.mp h with h1 | h2
    · exact absurd h1 (by simp)
    · exact ih pp c op P h2
  | progB rest ih =>
    intro pp c op P h
    rcases List.mem_cons.mp h with h1 | h2
    · exact absurd h1 (by simp)
    · exact ih pp c op P h2
  | node nm inner rest ih1 ih2 =>
    intro pp c op P h
    rcases List.mem_append.mp h with h1 | h2
    · rcases List.mem_cons.mp h1 with h3 | h4
      · obtain ⟨hop, hP⟩ := Ev.start.inj h3
        refine ⟨pp, c, ?_⟩
        rw [hop]
        exact hP
      · rcases List.mem_append.mp h4 with h5 | h6
        · exact ih1 _ _ op P h5
        · exfalso
          cases hr : bodyRaises inner with
          | none => rw [hr] at h6; simp [opTail] at h6
          | some p => rw [hr] at h6; cases p; simp [opTail] at h6
    · exact ih2 _ _ op P h2

/-- The trace of one tracked op run as a whole (OpsTracking.op): Start at
the freshly extended path, the body events, Error if the body raised, and
Finish. -/
def opTrace (nm : String) (pp : List String) (c : Nat) (inner : Body) : List Ev :=
  .start nm (pp ++ [get_op_id nm c]) ::
    ((runB (pp ++ [get_op_id nm c]) (c + 1) inner).1 ++
      opTail (pp ++ [get_op_id nm c]) (bodyRaises inner))

/-- The OpWrapper dataclass of confctl/wire/events.py (the object bound by
the with-statement of the action decorator): it records only the boolean
has_error, set by OpsTracking.op when the body raised; the exception object
itself is never stored on the wrapper. -/
structure OpWrapper where
  has_error : Bool
deriving DecidableEq

/-- Python attribute access on an OpWrapper dataclass field: only the
has_error field exists; any other name raises AttributeError. -/
def OpWrapper.getattr (w : OpWrapper) (name : String) : Except String Bool :=
  if name = "has_error" then .ok w.has_error
  else .error ("AttributeError: " ++ name)

/-- One call through the action decorator (confctl/deps/action.py:56-89)
made by a caller Dep: the wrapped function runs inside OpsTracking.op, which
emits Error and Finish and swallows a raised exception, leaving the wrapper
with has_error set; afterwards the decorator evaluates the condition
"op.error and isinstance(caller, Dep)".  Evaluating op.error is an
attribute access on the OpWrapper, which defines no error attribute, so it
raises AttributeError before the failsafe flags are ever consulted; the
mute/re-raise branch behind it (the ok arm below, returning the wrapped
result) is unreachable. -/
def runActionCall {V : Type} (nm caller_fqn : String) (caller_failsafe action_failsafe : Bool)
    (pp : List String) (c : Nat) (inner : Body) (ret : V) :
    Except String (Option V) × List Ev :=
  match (OpWrapper.mk (bodyRaises inner).isSome).getattr "error" with
  | .error msg => (.error msg, opTrace nm pp c inner)
  | .ok _ => (.ok (some ret), opTrace nm pp c inner)

/-- No run ever emits a Debug event: OpsTracking.op and its body emit only
Start, Log, Progress, Error and Finish events. -/
theorem runB_no_debug : ∀ (b : Body) (pp : List String) (c : Nat) (P : List String)
    (msg : String), Ev.debugE P msg ∉ (runB pp c b).1 := by
  intro b
  induction b with
  | done => intro pp c P msg h; simp [runB] at h
  | raised e tb => intro pp c P msg h; simp [runB] at h
  | logB m rest ih =>
    intro pp c P msg h
    rcases List.mem_cons.mp h with h1 | h2
    · exact absurd h1 (by simp)
    · exact ih pp c P msg h2
  | progB rest ih =>
    intro pp c P msg h
    rcases List.mem_cons.mp h with h1 | h2
    · exact absurd h1 (by simp)
    · exact ih pp c P msg h2
  | node nm inner rest ih1 ih2 =>
    intro pp c P msg h
    rcases List.mem_append.mp h with h1 | h2
    · rcases List.mem_cons.mp h1 with h3 | h4
      · exact absurd h3 (by simp)
      · rcases List.mem_append.mp h4 with h5 | h6
        · exact ih1 _ _ P msg h5
        · cases hr : bodyRaises inner with
          | none => rw [hr] at h6; simp [opTail] at h6
          | some p => rw [hr] at h6; cases p; simp [opTail] at h6
    · exact ih2 _ _ P msg h2

/-- The trace of one tracked op contains no Debug event, so in particular no
"Muted ... error" line is ever logged. -/
theorem opTrace_no_debug (nm : String) (pp : List String) (c : Nat) (inner : Body)
    (P : List String) (msg : String) : Ev.debugE P msg ∉ opTrace nm pp c inner := by
  intro h
  rcases List.mem_cons.mp h with h1 | h2
  · exact absurd h1 (by simp)
  · rcases List.mem_append.mp h2 with h3 | h4
    · exact runB_no_debug inner _ _ P msg h3
    · cases hr : bodyRaises inner with
      | none => rw [hr] at h4; simp [opTail] at h4
      | some p => rw [hr] at h4; cases p; simp [opTail] at h4

end Track

/-- Claim C2: in any worker run, every tracked operation (every emitted
Start path) has exactly one Finish event at its path; once that Finish is
emitted, no later event carries that path; any Error at that path precedes
the Finish; and an operation whose wrapped body raises emits an Error event
carrying the rendered message and traceback at its path (muting by failsafe
policy happens only after these events are emitted, so they are present
either way). -/
theorem tracked_op_error_before_finish :
    (∀ (b : Track.Body) (op : String) (P : List String),
      Track.Ev.start op P ∈ (Track.runB [] 0 b).1 →
      ∃ l1 l2, (Track.runB [] 0 b).1 = l1 ++ Track.Ev.finishE P :: l2 ∧
        Track.Ev.finishE P ∉ l1 ∧ Track.Ev.finishE P ∉ l2 ∧
        (∀ ev ∈ l2, Track.Ev.path ev ≠ P) ∧
        (∀ e tb, Track.Ev.errorE P e tb ∈ (Track.runB [] 0 b).1 →
          Track.Ev.errorE P e tb ∈ l1)) ∧
    (∀ (pp : List String) (c : Nat) (nm : String) (inner rest : Track.Body) (e tb : String),
      Track.bodyRaises inner = some (e, tb) →
      Track.Ev.errorE (pp ++ [Track.get_op_id nm c]) e tb ∈
        (Track.runB pp c (Track.Body.node nm inner rest)).1) := by
  constructor
  · intro b op P hstart
    have hfin := Track.runB_finish_exists b [] 0 op P hstart
    obtain ⟨l1, l2, hdec⟩ := List.append_of_mem hfin
    have hnodup := Track.runB_finishPaths_nodup b [] 0
    rw [hdec] at hnodup
    rw [Track.finishPaths_append] at hnodup
    have hcons : Track.finishPaths (Track.Ev.finishE P :: l2) =
        P :: Track.finishPaths l2 := rfl
    rw [hcons] at hnodup
    have hnd := List.nodup_append.mp hnodup
    have hP1 : P ∉ Track.finishPaths l1 := by
      intro hmem
      exact hnd.2.2 hmem (List.mem_cons_self P _)
    have hP2 : P ∉ Track.finishPaths l2 := by
      have := hnd.2.1
      rw [List.nodup_cons] at this
      exact this.1
    have hafter := Track.runB_after_finish b [] 0 l1 l2 P hdec
    refine ⟨l1, l2, hdec, ?_, ?_, hafter, ?_⟩
    · intro hmem
      exact hP1 ((Track.mem_finishPaths l1 P).mpr hmem)
    · intro hmem
      exact hP2 ((Track.mem_finishPaths l2 P).mpr hmem)
    · intro e tb hmem
      rw [hdec] at hmem
      rcases List.mem_append.mp hmem with h1 | h2
      · exact h1
      · rcases List.mem_cons.mp h2 with h3 | h4
        · exact absurd h3 (by simp)
        · exact absurd rfl (hafter _ h4)
  · intro pp c nm inner rest e tb hr
    have hmem : Track.Ev.errorE (pp ++ [Track.get_op_id nm c]) e tb ∈
        Track.opTail (pp ++ [Track.get_op_id nm c]) (Track.bodyRaises inner) := by
      rw [hr]
      simp [Track.opTail]
    show _ ∈ (Track.runB pp c (Track.Body.node nm inner rest)).1
    rw [show (Track.runB pp c (Track.Body.node nm inner rest)).1 =
      Track.Ev.start nm (pp ++ [Track.get_op_id nm c]) ::
        (((Track.runB (pp ++ [Track.get_op_id nm c]) (c + 1) inner).1 ++
          Track.opTail (pp ++ [Track.get_op_id nm c]) (Track.bodyRaises inner)) ++
          (Track.runB pp
            (Track.runB (pp ++ [Track.get_op_id nm c]) (c + 1) inner).2 rest).1) by
        simp [Track.runB]]
    exact List.mem_cons_of_mem _
      (List.mem_append.mpr (Or.inl (List.mem_append.mpr (Or.inr hmem))))

/-- A concrete run of the finish/error ordering theorem: one op whose body
raises; its trace has a single Finish, preceded by the Error. -/
theorem tracked_op_error_before_finish_witness :
    ∃ l1 l2,
      (Track.runB [] 0
        (Track.Body.node "build/target" (Track.Body.raised "boom" "tb") Track.Body.done)).1 =
        l1 ++ Track.Ev.finishE [Track.get_op_id "build/target" 0] :: l2 ∧
      Track.Ev.finishE [Track.get_op_id "build/target" 0] ∉ l1 ∧
      Track.Ev.finishE [Track.get_op_id "build/target" 0] ∉ l2 ∧
      (∀ ev ∈ l2, Track.Ev.path ev ≠ [Track.get_op_id "build/target" 0]) ∧
      (∀ e tb,
        Track.Ev.errorE [Track.get_op_id "build/target" 0] e tb ∈
          (Track.runB [] 0
            (Track.Body.node "build/target" (Track.Body.raised "boom" "tb")
              Track.Body.done)).1 →
        Track.Ev.errorE [Track.get_op_id "build/target" 0] e tb ∈ l1) := by
  exact tracked_op_error_before_finish.1
    (Track.Body.node "build/target" (Track.Body.raised "boom" "tb") Track.Body.done)
    "build/target" [Track.get_op_id "build/target" 0] (by decide)

/-- Claim C3 (code bug): the claimed failsafe muting is the evident intent
of the action decorator (confctl/deps/action.py:84-88 re-raises op.error
unless the caller Dep or the action is failsafe, else debug-logs a Muted
line and returns the degraded None), but the OpWrapper bound by the with
statement (confctl/wire/events.py) records only has_error and never stores
the exception: evaluating op.error raises AttributeError on every call -
raising or not, failsafe or not - before the failsafe flags are consulted,
so the mute/debug/return-None behavior is unreachable.  The already-emitted
event stream (Start, body events, Error when the body raised, Finish) is
unaffected, and no Muted debug line is ever emitted. -/
theorem failsafe_mute_attribute_error {V : Type} (nm caller_fqn : String)
    (caller_failsafe action_failsafe : Bool) (pp : List String) (c : Nat)
    (inner : Track.Body) (ret : V) :
    Track.runActionCall nm caller_fqn caller_failsafe action_failsafe pp c inner ret =
      (.error ("AttributeError: " ++ "error"), Track.opTrace nm pp c inner) := by
  unfold Track.runActionCall Track.OpWrapper.getattr
  rw [if_neg (by decide : ¬("error" : String) = "has_error")]

/-- Claim C4: in any worker run, the paths of all Start events are pairwise
distinct (ids are minted from the monotone counter only at Start and never
reused, so paths are globally unique); every Start path is its parent path
extended by exactly one minted id whose kind prefix is the op name; and for
any emitted event whose path strictly extends a nonempty path P, the Start
of P occurs earlier and the Finish of P occurs later in the stream - so the
op with the shorter path is an ancestor whose lifetime encloses the event. -/
theorem op_path_unique_hierarchy :
    (∀ b : Track.Body, (Track.startPaths (Track.runB [] 0 b).1).Nodup) ∧
    (∀ (b : Track.Body) (op : String) (P : List String),
      Track.Ev.start op P ∈ (Track.runB [] 0 b).1 →
      ∃ pp0 k, P = pp0 ++ [Track.get_op_id op k]) ∧
    (∀ (b : Track.Body) (l1 l2 : List Track.Ev) (ev : Track.Ev) (P : List String),
      (Track.runB [] 0 b).1 = l1 ++ ev :: l2 → P ≠ [] →
      (∃ s, s ≠ [] ∧ Track.Ev.path ev = P ++ s) →
      (∃ op, Track.Ev.start op P ∈ l1) ∧ Track.Ev.finishE P ∈ l2) := by
  refine ⟨?_, ?_, ?_⟩
  · intro b
    exact Track.runB_startPaths_nodup b [] 0
  · intro b op P h
    exact Track.runB_start_id b [] 0 op P h
  · intro b l1 l2 ev P hdec hne hext
    exact Track.runB_sandwich b [] 0 l1 l2 ev P hdec ⟨P, hne, by simp⟩ hext

/-- A concrete run of the hierarchy theorem: a nested op; the child's Start
is preceded by the parent's Start and followed by the parent's Finish. -/
theorem op_path_unique_hierarchy_witness :
    (∃ op, Track.Ev.start op [Track.get_op_id "build/target" 0] ∈
      [Track.Ev.start "build/target" [Track.get_op_id "build/target" 0]]) ∧
    Track.Ev.finishE [Track.get_op_id "build/target" 0] ∈
      [Track.Ev.finishE [Track.get_op_id "build/target" 0, Track.get_op_id "use/conf" 1],
        Track.Ev.finishE [Track.get_op_id "build/target" 0]] := by
  exact op_path_unique_hierarchy.2.2
    (Track.Body.node "build/target" (Track.Body.node "use/conf" Track.Body.done Track.Body.done)
      Track.Body.done)
    [Track.Ev.start "build/target" [Track.get_op_id "build/target" 0]]
    [Track.Ev.finishE [Track.get_op_id "build/target" 0, Track.get_op_id "use/conf" 1],
      Track.Ev.finishE [Track.get_op_id "build/target" 0]]
    (Track.Ev.start "use/conf" [Track.get_op_id "build/target" 0, Track.get_op_id "use/conf" 1])
    [Track.get_op_id "build/target" 0]
    (by decide) (by decide)
    ⟨[Track.get_op_id "use/conf" 1], by decide, by decide⟩

end Confctl
